import Mathlib

/-!
# Verification of the project-diff excerpt reconciliation engine

Shallow embedding of `crates/editor/src/git/project_diff.rs` (the
`ProjectDiffEditor` incremental excerpt-reconciliation engine) and proofs of
the specification claims about it.

Modelling conventions:
* A `text::Anchor` is resolved against a single immutable buffer snapshot
  during one reconciliation pass, so it is modelled as the `Point`
  (row, column) it resolves to; `Anchor::cmp(_, snapshot)` is the
  lexicographic order on points and `to_point(snapshot).row` is the row.
* Machine integers (`u32` rows, `usize` ids) stay far from overflow in this
  code path and are modelled as `Nat`; `saturating_sub` is `Nat` subtraction,
  which is saturating by definition.
* The external collaborators that are not part of the given sources
  (the `MultiBuffer` merged document, `util::paths::compare_paths`) are
  modelled from the spec, and say so in their doc comments.
-/

/-- A buffer coordinate: row and column.  Stands for `text::Point`, and also
for a `text::Anchor` resolved against the buffer snapshot of the current
reconciliation pass. -/
structure Point where
  row : Nat
  col : Nat
deriving DecidableEq, Repr

/-- `Anchor::cmp(_, &snapshot)`: lexicographic comparison of the resolved
points. -/
def Point.cmp (a b : Point) : Ordering :=
  if a.row < b.row then .lt
  else if b.row < a.row then .gt
  else if a.col < b.col then .lt
  else if b.col < a.col then .gt
  else .eq

/-- A `Range<text::Anchor>` (or `Range<text::Point>`) with both ends
resolved. -/
structure PRange where
  start : Point
  stop : Point
deriving DecidableEq, Repr

/-- Well-formed range: start does not come after stop. -/
def PRange.wf (r : PRange) : Prop := r.start.cmp r.stop ≠ .gt

instance (r : PRange) : Decidable r.wf := by unfold PRange.wf; infer_instance

/-- A project path.  `ProjectPath.path` in the source is an `Arc<Path>`;
modelled as its list of components. -/
abbrev ProjectPath := List String

/-- Modelled from the spec: `util::paths::compare_paths` (not among the given
sources), "a path comparator that treats path components case-sensitively and
directory-then-file".  Both call sites in `update_excerpts` pass
`is_file = true` for both arguments, under which the comparator reduces to
component-wise case-sensitive comparison, shorter path first. -/
def compare_paths : ProjectPath → ProjectPath → Ordering
  | [], [] => .eq
  | [], _ :: _ => .lt
  | _ :: _, [] => .gt
  | a :: as_, b :: bs =>
    match compare a b with
    | .eq => compare_paths as_ bs
    | o => o

/-- `git::repository::GitFileStatus`. -/
inductive GitFileStatus where
  | Added
  | Modified
  | Conflict
deriving DecidableEq, Repr

/-- A source text buffer handle together with the data `update_excerpts`
reads from its snapshot: `Model<Buffer>` identity (`bufId`) and
`snapshot().max_point()`. -/
structure Buffer where
  bufId : Nat
  maxPoint : Point
deriving DecidableEq, Repr

/-- `git::diff::DiffHunk`, restricted to the field the reconciler uses. -/
structure DiffHunk where
  buffer_range : PRange
deriving DecidableEq, Repr

/-- `Changes`: per-file record stored in `buffer_changes`. -/
structure Changes where
  status : GitFileStatus
  buffer : Buffer
  hunks : List DiffHunk
deriving DecidableEq, Repr

/-- `multi_buffer::ExpandExcerptDirection`. -/
inductive ExpandExcerptDirection where
  | Up
  | Down
  | UpAndDown
deriving DecidableEq, Repr

/-- One excerpt of the merged document: its `ExcerptId`, owning buffer and
`ExcerptRange` (context plus optional primary range). -/
structure Excerpt where
  excerptId : Nat
  buffer : Buffer
  context : PRange
  primary : Option PRange
deriving DecidableEq, Repr

/-- Modelled from the spec (section 4.3, the Merged Document is an external
contract): an ordered sequence of excerpts.  `ExcerptId::min()` is modelled
as `0`; real excerpts receive ids from the fresh-id counter `nextId`,
starting strictly above `0`. -/
structure MultiBuffer where
  excerpts : List Excerpt
  nextId : Nat
deriving DecidableEq, Repr

/-- `ExcerptId::min()`. -/
def ExcerptId.min : Nat := 0

/-- Modelled from the spec: `MultiBuffer::excerpts_for_buffer` returns the
ordered `(id, context range)` pairs of the excerpts drawn from one buffer. -/
def excerpts_for_buffer (mb : MultiBuffer) (b : Buffer) : List (Nat × PRange) :=
  (mb.excerpts.filter (fun e => e.buffer = b)).map (fun e => (e.excerptId, e.context))

/-- Modelled from the spec: `DEFAULT_MULTIBUFFER_CONTEXT`, the fixed minimum
context padding of `crate::editor` (the constant's definition is not among
the given sources; the spec only requires it to be a fixed constant). -/
def DEFAULT_MULTIBUFFER_CONTEXT : Nat := 2

/-! ## The hunk-diff step (lines 424-524 of `update_excerpts`)

For one file present in both orderings, each new hunk is matched against the
cursor over the stored old hunks, classifying it as unchanged
(`new_hunks_unchanged`) or as changed/new (`new_hunks_with_updates`). -/

/-- One round of the `'new_changes` loop: match one new hunk against the old
hunk cursor.  Returns `(unchanged?, remaining old-hunk cursor)`.  The `match`
arms are in source order; `current_hunks.next()` is a tail call on the rest
of the cursor. -/
def classify_step (nh : PRange) : List PRange → Bool × List PRange
  | [] => (false, [])
  | ch :: rest =>
    match ch.start.cmp nh.start, ch.stop.cmp nh.stop with
    | .eq, .eq => (true, rest)
    | .eq, .lt | .eq, .gt | .lt, .eq | .gt, .eq => (false, ch :: rest)
    | .lt, .gt | .gt, .lt => (false, ch :: rest)
    | .lt, .lt =>
      if (ch.start.cmp nh.stop).isLE then (false, ch :: rest)
      else classify_step nh rest
    | .gt, .gt =>
      if (ch.stop.cmp nh.start).isGE then (false, ch :: rest)
      else classify_step nh rest

/-- The full `'new_changes` loop: fold `classify_step` over the new hunks,
accumulating `new_hunks_unchanged` and `new_hunks_with_updates` in order. -/
def classify_new_hunks (cur : List PRange) : List PRange → List PRange × List PRange
  | [] => ([], [])
  | nh :: rest =>
    match classify_step nh cur with
    | (true, cur') =>
      let (u, w) := classify_new_hunks cur' rest
      (nh :: u, w)
    | (false, cur') =>
      let (u, w) := classify_new_hunks cur' rest
      (u, nh :: w)

-- sanity check: identical singleton hunk lists are classified unchanged
example :
    classify_new_hunks [⟨⟨2, 0⟩, ⟨4, 0⟩⟩] [⟨⟨2, 0⟩, ⟨4, 0⟩⟩]
      = ([⟨⟨2, 0⟩, ⟨4, 0⟩⟩], []) := by decide

-- sanity check: a moved hunk is classified changed
example :
    classify_new_hunks [⟨⟨2, 0⟩, ⟨4, 0⟩⟩] [⟨⟨30, 0⟩, ⟨35, 0⟩⟩]
      = ([], [⟨⟨30, 0⟩, ⟨35, 0⟩⟩]) := by decide

/-! ## Association-list maps

`collections::HashMap` / `collections::BTreeMap` keyed by `WorktreeId`,
`ProjectEntryId` or `ExcerptId` (all modelled as `Nat`). -/

/-- `map.get(&k)`. -/
def alist_lookup {α : Type} : List (Nat × α) → Nat → Option α
  | [], _ => none
  | (k, v) :: rest, k' => if k = k' then some v else alist_lookup rest k'

/-- `map.insert(k, v)` / the `mem::swap` into `map.entry(k).or_default()`:
replace the value at `k`, appending the entry if absent. -/
def alist_set {α : Type} : List (Nat × α) → Nat → α → List (Nat × α)
  | [], k, v => [(k, v)]
  | (k', v') :: rest, k, v =>
    if k' = k then (k', v) :: rest else (k', v') :: alist_set rest k v

/-- `map.remove(&k)`. -/
def alist_remove {α : Type} : List (Nat × α) → Nat → List (Nat × α)
  | [], _ => []
  | (k', v') :: rest, k => if k' = k then rest else (k', v') :: alist_remove rest k

/-! ## The queued edit script of one steady-state reconciliation

`update_excerpts` accumulates, before its apply phase:
`excerpts_to_remove : Vec<ExcerptId>`,
`new_excerpt_hunks : BTreeMap<ExcerptId, Vec<(ProjectPath, Model<Buffer>, Vec<Range<Anchor>>)>>`,
`excerpt_to_expand : HashMap<(u32, ExpandExcerptDirection), Vec<ExcerptId>>` and
`latest_excerpt_id : ExcerptId`. -/

/-- One entry of a `new_excerpt_hunks` group: the new file's path, its buffer
and the hunk anchor ranges to insert. -/
abbrev GroupEntry := ProjectPath × Buffer × List PRange

structure QueueState where
  excerpts_to_remove : List Nat
  new_excerpt_hunks : List (Nat × List GroupEntry)
  excerpt_to_expand : List ((Nat × ExpandExcerptDirection) × List Nat)
  latest_excerpt_id : Nat
deriving DecidableEq, Repr

def initial_queues : QueueState := ⟨[], [], [], ExcerptId.min⟩

/-- `new_excerpt_hunks.entry(k).or_default()` followed by the mutation `f` of
the group vector; the `BTreeMap` is kept as an association list sorted by
ascending key. -/
def btree_update (k : Nat) (f : List GroupEntry → List GroupEntry) :
    List (Nat × List GroupEntry) → List (Nat × List GroupEntry)
  | [] => [(k, f [])]
  | (k', g) :: rest =>
    if k < k' then (k, f []) :: (k', g) :: rest
    else if k = k' then (k', f g) :: rest
    else (k', g) :: btree_update k f rest

/-- The repeated `hunks.binary_search_by(|(probe, ..)| compare_paths(new_path, probe))`
followed by `Vec::insert` at `Err(i)` or `hunks[i].2.extend(..)` at `Ok(i)`.
The comparator receives the probe as its *second* argument, so the group
vector is maintained sorted descending by path; on such a vector Rust's
binary search returns `Ok` at the (unique) equal element and `Err` at the
first strictly smaller path, which this single scan computes: while the
probe is greater than `np` (comparator `.lt`) keep walking, extend in place
at an equal probe, and insert in front of the first smaller probe. -/
def group_insert (np : ProjectPath) (b : Buffer) (rs : List PRange) :
    List GroupEntry → List GroupEntry
  | [] => [(np, b, rs)]
  | (p', b', rs') :: rest =>
    match compare_paths np p' with
    | .lt => (p', b', rs') :: group_insert np b rs rest
    | .eq => (p', b', rs' ++ rs) :: rest
    | .gt => (np, b, rs) :: (p', b', rs') :: rest

/-- Queue the whole new-hunk list of a file for insertion anchored at the
current `latest_excerpt_id` (the block repeated at lines 381-408, 643-671,
727-765 and 819-838 of the source). -/
def queue_insert_hunks (qs : QueueState) (np : ProjectPath) (b : Buffer)
    (rs : List PRange) : QueueState :=
  { qs with new_excerpt_hunks :=
      (btree_update qs.latest_excerpt_id (group_insert np b rs) qs.new_excerpt_hunks) }

/-- `excerpt_to_expand.entry((line_count, direction)).or_default().push(excerpt_id)`;
the `HashMap` is modelled as an association list in key-creation order
(its iteration order is unspecified in Rust; expansions of distinct
`(line_count, direction)` groups commute, see `expand_excerpts`). -/
def expand_insert (key : Nat × ExpandExcerptDirection) (eid : Nat) :
    List ((Nat × ExpandExcerptDirection) × List Nat) →
    List ((Nat × ExpandExcerptDirection) × List Nat)
  | [] => [(key, [eid])]
  | (k, ids) :: rest =>
    if k = key then (k, ids ++ [eid]) :: rest else (k, ids) :: expand_insert key eid rest

/-! ## The excerpt-reconciliation step (lines 526-769)

Each changed/new hunk is matched against the cursor over the file's current
excerpts (`current_excerpts`); the `'new_hunks` loop either marks an excerpt
touched (`excerpts_with_new_changes`), queues an expansion, queues the file's
hunks for insertion, or advances the excerpt cursor and retries. -/

/-- One `'new_hunks` iteration for one hunk: walk the excerpt cursor until
the hunk is consumed.  Arguments: the matched new file's path `np`, buffer
`b` and full new-hunk range list `allRs` (the insertion branches re-queue
*all* of the file's hunks), the hunk `nh`, then the excerpt cursor, queued
edits and touched set.  The `match` arms are in source order. -/
def reconcile_one_hunk (np : ProjectPath) (b : Buffer) (allRs : List PRange) (nh : PRange) :
    List (Nat × PRange) → QueueState → List Nat →
    List (Nat × PRange) × QueueState × List Nat
  | [], qs, touched => ([], queue_insert_hunks qs np b allRs, touched)
  | (eid, er) :: rest, qs, touched =>
    match er.start.cmp nh.start, er.stop.cmp nh.stop with
    | .lt, .gt | .lt, .eq | .eq, .gt | .eq, .eq =>
      ((eid, er) :: rest, qs, eid :: touched)
    | .gt, .lt | .gt, .eq | .eq, .lt =>
      let expand_up := er.start.row - nh.start.row
      let expand_down := nh.stop.row - er.stop.row
      let qs := { qs with excerpt_to_expand :=
          (expand_insert (max (max expand_up expand_down) DEFAULT_MULTIBUFFER_CONTEXT, .UpAndDown)
            eid qs.excerpt_to_expand) }
      ((eid, er) :: rest, qs, eid :: touched)
    | .lt, .lt =>
      if (er.start.cmp nh.stop).isLE then
        let expand_up := er.start.row - nh.start.row
        let qs := { qs with excerpt_to_expand :=
            (expand_insert (max expand_up DEFAULT_MULTIBUFFER_CONTEXT, .Up) eid qs.excerpt_to_expand) }
        ((eid, er) :: rest, qs, eid :: touched)
      else
        ((eid, er) :: rest, if allRs.isEmpty then qs else queue_insert_hunks qs np b allRs, touched)
    | .gt, .gt =>
      if (er.stop.cmp nh.start).isGE then
        let expand_down := nh.stop.row - er.stop.row
        let qs := { qs with excerpt_to_expand :=
            (expand_insert (max expand_down DEFAULT_MULTIBUFFER_CONTEXT, .Down) eid qs.excerpt_to_expand) }
        ((eid, er) :: rest, qs, eid :: touched)
      else
        reconcile_one_hunk np b allRs nh rest { qs with latest_excerpt_id := eid } touched

/-- The full `'new_hunks` loop over `new_hunks_with_updates`. -/
def reconcile_hunks (np : ProjectPath) (b : Buffer) (allRs : List PRange) :
    List PRange → List (Nat × PRange) → QueueState → List Nat →
    List (Nat × PRange) × QueueState × List Nat
  | [], cursor, qs, touched => (cursor, qs, touched)
  | nh :: hs, cursor, qs, touched =>
    let (cursor', qs', touched') := reconcile_one_hunk np b allRs nh cursor qs touched
    reconcile_hunks np b allRs hs cursor' qs' touched'

/-- Lines 771-795: every excerpt left on the cursor that was never touched
and does not overlap an unchanged hunk is queued for removal;
`latest_excerpt_id` is updated to each visited excerpt id. -/
def removal_scan (unchanged : List PRange) :
    List (Nat × PRange) → List Nat → QueueState → QueueState
  | [], _, qs => qs
  | (eid, er) :: rest, touched, qs =>
    if touched.contains eid ||
        unchanged.any (fun h => (er.start.cmp h.stop).isLE && (er.stop.cmp h.start).isGE) then
      removal_scan unchanged rest touched { qs with latest_excerpt_id := eid }
    else
      removal_scan unchanged rest touched
        { qs with excerpts_to_remove := qs.excerpts_to_remove ++ [eid],
                  latest_excerpt_id := eid }

/-- The `Ordering::Equal` branch (lines 413-803) for a file present in both
orderings: classify the new hunks against the stored ones, reconcile the
changed ones against the excerpt cursor, then run the removal scan. -/
def process_equal (ccs ncs : Changes) (np : ProjectPath)
    (cursor : List (Nat × PRange)) (qs : QueueState) : QueueState :=
  let (unchanged, with_updates) :=
    classify_new_hunks (ccs.hunks.map (·.buffer_range)) (ncs.hunks.map (·.buffer_range))
  let (cursor', qs', touched) :=
    reconcile_hunks np ncs.buffer (ncs.hunks.map (·.buffer_range)) with_updates cursor qs []
  removal_scan unchanged cursor' touched qs'

/-- Queue the ids of every excerpt left on the cursor for removal
(lines 373-377, 797-800 and 806-810). -/
def remove_rest (cursor : List (Nat × PRange)) (qs : QueueState) : QueueState :=
  { qs with excerpts_to_remove := qs.excerpts_to_remove ++ cursor.map Prod.fst }

/-- The inner `loop` (lines 366-812) for one current file `cp` with stored
changes `ccs`: peek at the new-order cursor and branch on the path
comparison.  Returns the remaining new-order entries and the queues. -/
def step_news (cp : ProjectPath) (ccs : Changes) (nc : List (Nat × Changes))
    (cursor : List (Nat × PRange)) :
    List (ProjectPath × Nat) → QueueState → List (ProjectPath × Nat) × QueueState
  | [], qs => ([], remove_rest cursor qs)
  | (np, ne) :: rest, qs =>
    match compare_paths cp np with
    | .lt => ((np, ne) :: rest, remove_rest cursor qs)
    | .gt =>
      let qs := match alist_lookup nc ne with
        | some ncs =>
          if ncs.hunks.isEmpty then qs
          else queue_insert_hunks qs np ncs.buffer (ncs.hunks.map (·.buffer_range))
        | none => qs
      step_news cp ccs nc cursor rest qs
    | .eq =>
      match alist_lookup nc ne with
      | some ncs => (rest, process_equal ccs ncs np cursor qs)
      | none => (rest, remove_rest cursor qs)

/-- The outer `for (current_path, current_entry_id) in current_order` loop
(lines 349-814).  A current file whose stored entry is missing or has an
empty hunk list is skipped (`continue`) before anything else happens; after
the inner loop, `latest_excerpt_id` is reset to the id of the file's last
excerpt when it has one. -/
def process_currents (mb : MultiBuffer) (current_entries nc : List (Nat × Changes)) :
    List (ProjectPath × Nat) → List (ProjectPath × Nat) → QueueState →
    List (ProjectPath × Nat) × QueueState
  | [], news, qs => (news, qs)
  | (cp, ce) :: cs, news, qs =>
    match alist_lookup current_entries ce with
    | none => process_currents mb current_entries nc cs news qs
    | some ccs =>
      if ccs.hunks.isEmpty then process_currents mb current_entries nc cs news qs
      else
        let buffer_excerpts := excerpts_for_buffer mb ccs.buffer
        let last_current_excerpt_id := (buffer_excerpts.map Prod.fst).getLast?
        let (news', qs') := step_news cp ccs nc buffer_excerpts news qs
        let qs'' := { qs' with latest_excerpt_id :=
            (last_current_excerpt_id.getD qs'.latest_excerpt_id) }
        process_currents mb current_entries nc cs news' qs''

/-- The trailing `for (path, project_entry_id) in new_order_entries` loop
(lines 816-841): queue every remaining new file with non-empty hunks at the
final `latest_excerpt_id`. -/
def queue_leftovers (nc : List (Nat × Changes)) :
    List (ProjectPath × Nat) → QueueState → QueueState
  | [], qs => qs
  | (p, ne) :: rest, qs =>
    let qs := match alist_lookup nc ne with
      | some ch =>
        if ch.hunks.isEmpty then qs
        else queue_insert_hunks qs p ch.buffer (ch.hunks.map (·.buffer_range))
      | none => qs
    queue_leftovers nc rest qs

/-- The whole queue-computation part of a steady-state `update_excerpts`
call (lines 337-841). -/
def compute_queues (mb : MultiBuffer) (current_entries nc : List (Nat × Changes))
    (current_order new_order : List (ProjectPath × Nat)) : QueueState :=
  let (news', qs) := process_currents mb current_entries nc current_order new_order initial_queues
  queue_leftovers nc news' qs

/-! ## The apply phase (lines 843-893) and the Merged Document operations

The `MultiBuffer` mutation primitives are external (spec section 4.3) and
are modelled from the spec: insert-after (anchor absent — in particular
`ExcerptId::min()` — inserts at the front), remove, and expand-in-place,
each preserving the relative order of untouched excerpts. -/

/-- Lines 851-863: pad a hunk's point range by `DEFAULT_MULTIBUFFER_CONTEXT`
rows on each side and clip it to the buffer's bounds (row `0` by saturation,
`max_point().row` by `min`). -/
def pad_clip (maxPt : Point) (r : PRange) : PRange :=
  ⟨⟨r.start.row - DEFAULT_MULTIBUFFER_CONTEXT, r.start.col⟩,
   ⟨Nat.min (r.stop.row + DEFAULT_MULTIBUFFER_CONTEXT) maxPt.row, r.stop.col⟩⟩

/-- Fresh excerpts for the given context ranges, with consecutive ids
starting at `i`. -/
def mk_excerpts (b : Buffer) : Nat → List PRange → List Excerpt
  | _, [] => []
  | i, c :: cs => ⟨i, b, c, none⟩ :: mk_excerpts b (i + 1) cs

/-- Splice `ns` directly after the first excerpt with id `eid`. -/
def place_after (eid : Nat) (ns : List Excerpt) : List Excerpt → List Excerpt
  | [] => []
  | e :: rest =>
    if e.excerptId = eid then e :: (ns ++ rest) else e :: place_after eid ns rest

/-- Modelled from the spec:
`MultiBuffer::insert_excerpts_after(anchor_id, buffer, context_ranges) -> [new_ids]`.
When the anchor id is not an existing excerpt — in particular
`ExcerptId::min()` — the new excerpts go to the front. -/
def insert_excerpts_after (mb : MultiBuffer) (afterId : Nat) (b : Buffer)
    (ctxs : List PRange) : MultiBuffer × List Nat :=
  let ns := mk_excerpts b mb.nextId ctxs
  let ids := ns.map (·.excerptId)
  let l := if mb.excerpts.any (fun e => e.excerptId = afterId)
    then place_after afterId ns mb.excerpts
    else ns ++ mb.excerpts
  (⟨l, mb.nextId + ctxs.length⟩, ids)

/-- Modelled from the spec: `MultiBuffer::remove_excerpts(ids)`. -/
def remove_excerpts (mb : MultiBuffer) (ids : List Nat) : MultiBuffer :=
  { mb with excerpts := mb.excerpts.filter (fun e => !(ids.contains e.excerptId)) }

/-- Modelled from the spec: the effect of
`MultiBuffer::expand_excerpts(ids, line_count, direction)` on one excerpt:
grow the context by `line_count` rows upward and/or downward, clipped to the
buffer bounds (row granularity); untargeted excerpts are unchanged. -/
def expand_one_excerpt (ids : List Nat) (line_count : Nat)
    (dir : ExpandExcerptDirection) (e : Excerpt) : Excerpt :=
  if ids.contains e.excerptId then
    let s := e.context.start
    let t := e.context.stop
    let s' : Point := match dir with
      | .Up | .UpAndDown => ⟨s.row - line_count, s.col⟩
      | .Down => s
    let t' : Point := match dir with
      | .Down | .UpAndDown => ⟨Nat.min (t.row + line_count) e.buffer.maxPoint.row, t.col⟩
      | .Up => t
    { e with context := ⟨s', t'⟩ }
  else e

/-- Modelled from the spec:
`MultiBuffer::expand_excerpts(ids, line_count, direction)`, preserving the
relative order of excerpts. -/
def expand_excerpts (mb : MultiBuffer) (ids : List Nat) (line_count : Nat)
    (dir : ExpandExcerptDirection) : MultiBuffer :=
  { mb with excerpts := mb.excerpts.map (expand_one_excerpt ids line_count dir) }

/-- Lines 845-868: insert one group's files in their group-vector order,
re-anchoring after the last excerpt inserted so far
(`after_excerpt_id = new_excerpts.last().copied().unwrap_or(after_excerpt_id)`). -/
def apply_insert_group : List GroupEntry → MultiBuffer → Nat → MultiBuffer
  | [], mb, _ => mb
  | (_, b, rs) :: rest, mb, afterId =>
    let ctxs := rs.map (pad_clip b.maxPoint)
    let (mb', ids) := insert_excerpts_after mb afterId b ctxs
    apply_insert_group rest mb' (ids.getLast?.getD afterId)

/-- Lines 844-869: the insertion loop over `new_excerpt_hunks`
(a `BTreeMap`, iterated in ascending `ExcerptId` order, which is the list
order of the sorted association list built by `btree_update`). -/
def insert_phase : List (Nat × List GroupEntry) → MultiBuffer → MultiBuffer
  | [], mb => mb
  | (afterId, gs) :: rest, mb => insert_phase rest (apply_insert_group gs mb afterId)

/-- Lines 871-873: the expansion loop over `excerpt_to_expand`. -/
def expand_phase : List ((Nat × ExpandExcerptDirection) × List Nat) → MultiBuffer → MultiBuffer
  | [], mb => mb
  | ((line_count, dir), ids) :: rest, mb =>
    expand_phase rest (expand_excerpts mb ids line_count dir)

/-- Modelled from the spec (section 4.2, bootstrap case):
`MultiBuffer::push_excerpts_with_context_lines` appends the hunks of one
buffer at the end of the merged document as new excerpts with the fixed
context padding on each side, clipped to the buffer bounds. -/
def push_excerpts_with_context_lines (mb : MultiBuffer) (b : Buffer)
    (rs : List PRange) : MultiBuffer :=
  ⟨mb.excerpts ++ mk_excerpts b mb.nextId (rs.map (pad_clip b.maxPoint)),
   mb.nextId + rs.length⟩

/-! ## The editor state and `update_excerpts` itself -/

/-- The `ProjectDiffEditor` fields the reconciler and scheduler touch:
`buffer_changes : BTreeMap<WorktreeId, HashMap<ProjectEntryId, Changes>>`,
`entry_order : HashMap<WorktreeId, Vec<(ProjectPath, ProjectEntryId)>>`,
`excerpts : Model<MultiBuffer>` and
`worktree_rescans : HashMap<WorktreeId, Task<()>>` (each pending task is
modelled by its key's presence). -/
structure ProjectDiffEditor where
  buffer_changes : List (Nat × List (Nat × Changes))
  entry_order : List (Nat × List (ProjectPath × Nat))
  excerpts : MultiBuffer
  worktree_rescans : List Nat
deriving DecidableEq, Repr

/-- `ProjectDiffEditor::update_excerpts` (lines 330-905): steady state when
an entry order is recorded for the worktree, bootstrap otherwise; in both
cases the stored changes map and entry order are replaced by the new
snapshot at the end (the two `mem::swap`s). -/
def update_excerpts (st : ProjectDiffEditor) (worktree_id : Nat)
    (new_changes : List (Nat × Changes))
    (new_entry_order : List (ProjectPath × Nat)) : ProjectDiffEditor :=
  let mb :=
    match alist_lookup st.entry_order worktree_id with
    | some current_order =>
      let current_entries := (alist_lookup st.buffer_changes worktree_id).getD []
      let qs := compute_queues st.excerpts current_entries new_changes
        current_order new_entry_order
      expand_phase qs.excerpt_to_expand
        (remove_excerpts (insert_phase qs.new_excerpt_hunks st.excerpts)
          qs.excerpts_to_remove)
    | none =>
      new_entry_order.foldl (fun mb pe =>
        match alist_lookup new_changes pe.2 with
        | some ncs =>
          push_excerpts_with_context_lines mb ncs.buffer (ncs.hunks.map (·.buffer_range))
        | none => mb) st.excerpts
  { st with
      excerpts := mb
      buffer_changes := alist_set st.buffer_changes worktree_id new_changes
      entry_order := alist_set st.entry_order worktree_id new_entry_order }

/-! ## The project-event subscription (lines 90-146) -/

/-- The `project::Event` cases matched by the subscription in
`ProjectDiffEditor::new`; `Other` stands for the wildcard arm. -/
inductive ProjectEvent where
  | WorktreeAdded (id : Nat)
  | WorktreeRemoved (id : Nat)
  | WorktreeUpdatedEntries (id : Nat)
  | WorktreeUpdatedGitRepositories (id : Nat)
  | DeletedEntry (id : Nat) (entry_id : Nat)
  | Closed
  | Other
deriving DecidableEq, Repr

/-- `ProjectDiffEditor::schedule_worktree_rescan` (line 188-328), restricted
to its synchronous effect on the editor state: inserting a (debounced,
cancellable) task for the worktree into `worktree_rescans`, replacing any
pending one. -/
def schedule_worktree_rescan (st : ProjectDiffEditor) (id : Nat) : ProjectDiffEditor :=
  { st with worktree_rescans := id :: st.worktree_rescans.filter (fun k => k ≠ id) }

/-- The subscription body (lines 91-145): update `buffer_changes` according
to the event and schedule a rescan for `worktree_to_rescan` when one was
selected. -/
def handle_project_event (st : ProjectDiffEditor) (e : ProjectEvent) : ProjectDiffEditor :=
  let r : ProjectDiffEditor × Option Nat :=
    match e with
    | .WorktreeAdded id => (st, some id)
    | .WorktreeRemoved id =>
      ({ st with buffer_changes := alist_remove st.buffer_changes id }, none)
    | .WorktreeUpdatedEntries id => (st, some id)
    | .WorktreeUpdatedGitRepositories id => (st, some id)
    | .DeletedEntry id _ => (st, some id)
    | .Closed => ({ st with buffer_changes := [] }, none)
    | .Other => (st, none)
  match r.2 with
  | some id => schedule_worktree_rescan r.1 id
  | none => r.1

/-! ## The rendering-layer gate (lines 936-945, 1082-1094) -/

/-- The boolean both `tab_content` and `render` branch on: the negation of
`self.buffer_changes.is_empty()` (emptiness of the *outer* per-worktree
map). -/
def has_any_changes (st : ProjectDiffEditor) : Bool :=
  !st.buffer_changes.isEmpty

/-! ## The buffer-loading step of a rescan (lines 220-251) -/

/-- What `open_task.await` followed by `downcast::<Buffer>` can produce for
one file: a load error, a non-buffer model, or a text buffer. -/
inductive OpenedModel where
  | failed (msg : String)
  | otherModel
  | textBuffer (b : Buffer)
deriving DecidableEq, Repr

/-- Lines 242-249: drain the open tasks, keep `log_err`-surviving results.
A load error or a failed downcast is logged and skipped; every successfully
opened text buffer is pushed.  (`FuturesUnordered` yields results in
completion order; the model uses task order, which the claims about
membership do not depend on.) -/
def load_buffers_with_git_diff :
    List (GitFileStatus × Nat × ProjectPath × OpenedModel) →
    List (GitFileStatus × Nat × ProjectPath × Buffer)
  | [] => []
  | (s, i, p, m) :: rest =>
    match m with
    | .textBuffer b => (s, i, p, b) :: load_buffers_with_git_diff rest
    | .otherModel => load_buffers_with_git_diff rest
    | .failed _ => load_buffers_with_git_diff rest

/-! ## Concrete instances used to exercise the code on specific inputs -/

/-- The single tracked buffer of the C1 scenario (100 rows). -/
def bufC1 : Buffer := ⟨1, ⟨100, 0⟩⟩

/-- Root state for the idempotence scenario: one tracked file `f` whose
stored hunk is rows 2-4, shown by excerpt `1` with context rows 0-6. -/
def stC1 : ProjectDiffEditor :=
  { buffer_changes := [(1, [(1, ⟨.Modified, bufC1, [⟨⟨⟨2, 0⟩, ⟨4, 0⟩⟩⟩]⟩)])]
    entry_order := [(1, [(["f"], 1)])]
    excerpts := ⟨[⟨1, bufC1, ⟨⟨0, 0⟩, ⟨6, 0⟩⟩, none⟩], 2⟩
    worktree_rescans := [] }

/-- New snapshot for the C1 scenario: the file's only hunk moved to
rows 30-35. -/
def ncC1 : List (Nat × Changes) := [(1, ⟨.Modified, bufC1, [⟨⟨⟨30, 0⟩, ⟨35, 0⟩⟩⟩]⟩)]

def noC1 : List (ProjectPath × Nat) := [(["f"], 1)]

/-- Buffers of the three files of the C2 scenario. -/
def bufA : Buffer := ⟨1, ⟨100, 0⟩⟩
def bufB : Buffer := ⟨2, ⟨100, 0⟩⟩
def bufC : Buffer := ⟨3, ⟨100, 0⟩⟩

/-- Root state for the insertion-order scenario: only file `c` is tracked,
shown by excerpt `1`. -/
def stC2 : ProjectDiffEditor :=
  { buffer_changes := [(1, [(3, ⟨.Modified, bufC, [⟨⟨⟨10, 0⟩, ⟨12, 0⟩⟩⟩]⟩)])]
    entry_order := [(1, [(["c"], 3)])]
    excerpts := ⟨[⟨1, bufC, ⟨⟨8, 0⟩, ⟨14, 0⟩⟩, none⟩], 2⟩
    worktree_rescans := [] }

/-- New snapshot for the C2 scenario: files `a` and `b` appear, both sorting
before `c`, each with one hunk. -/
def ncC2 : List (Nat × Changes) :=
  [(1, ⟨.Added, bufA, [⟨⟨⟨5, 0⟩, ⟨6, 0⟩⟩⟩]⟩),
   (2, ⟨.Added, bufB, [⟨⟨⟨5, 0⟩, ⟨6, 0⟩⟩⟩]⟩),
   (3, ⟨.Modified, bufC, [⟨⟨⟨10, 0⟩, ⟨12, 0⟩⟩⟩]⟩)]

def noC2 : List (ProjectPath × Nat) := [(["a"], 1), (["b"], 2), (["c"], 3)]

/-- Old and new hunk lists of the C3 scenario: the first hunk's end moved by
one row, the second hunk is byte-identical in both lists. -/
def oldHunksC3 : List PRange := [⟨⟨0, 0⟩, ⟨5, 0⟩⟩, ⟨⟨10, 0⟩, ⟨12, 0⟩⟩]

def newHunksC3 : List PRange := [⟨⟨0, 0⟩, ⟨6, 0⟩⟩, ⟨⟨10, 0⟩, ⟨12, 0⟩⟩]

/-- State with every per-root structure populated for root `7`, used to
observe what a `WorktreeRemoved(7)` notification evicts. -/
def stC6 : ProjectDiffEditor :=
  { buffer_changes := [(7, [(1, ⟨.Modified, bufC1, []⟩)])]
    entry_order := [(7, [(["x"], 1)])]
    excerpts := ⟨[], 1⟩
    worktree_rescans := [7] }

/-- State whose outer changes map has one root entry whose inner per-file
map is empty: no tracked file has recorded changes. -/
def stC7 : ProjectDiffEditor :=
  { buffer_changes := [(1, [])]
    entry_order := [(1, [])]
    excerpts := ⟨[], 1⟩
    worktree_rescans := [] }

/-- The queues a steady-state `update_excerpts` call computes before its
apply phase, named for use in statements about the apply phase. -/
def steady_queues (st : ProjectDiffEditor) (wid : Nat) (nc : List (Nat × Changes))
    (no cur : List (ProjectPath × Nat)) : QueueState :=
  compute_queues st.excerpts ((alist_lookup st.buffer_changes wid).getD []) nc cur no

/-- Proof-infrastructure predicate: the new file `(p, b)` is queued, with a
non-empty hunk-range list, in the insertion group anchored at
`ExcerptId::min()`. -/
def queued_in_min_group (p : ProjectPath) (b : Buffer) (qs : QueueState) : Prop :=
  ∃ g, (ExcerptId.min, g) ∈ qs.new_excerpt_hunks ∧ ∃ rs, rs ≠ [] ∧ (p, b, rs) ∈ g

/-- Proof-infrastructure invariant of the queue computation: group keys are
strictly ascending (the `BTreeMap`), every queued entry whose buffer is
`chb` is the entry for path `p` in the group anchored at `ExcerptId::min()`,
and every queued removal id is the id of one of the excerpts the merged
document held when the reconciliation started. -/
def QueueInv (old : List Excerpt) (chb : Buffer) (p : ProjectPath) (qs : QueueState) : Prop :=
  List.Pairwise (fun a b => a.1 < b.1) qs.new_excerpt_hunks
  ∧ (∀ k g, (k, g) ∈ qs.new_excerpt_hunks → ∀ q bb rs, (q, bb, rs) ∈ g → bb = chb →
      k = ExcerptId.min ∧ q = p)
  ∧ (∀ i ∈ qs.excerpts_to_remove, ∃ exo ∈ old, i = exo.excerptId)

/-- Proof-infrastructure invariant of the phase before the new file `p` is
consumed: every path queued so far sorts strictly before `p`. -/
def pre_inv (p : ProjectPath) (qs : QueueState) : Prop :=
  ∀ k g, (k, g) ∈ qs.new_excerpt_hunks → ∀ q bb rs, (q, bb, rs) ∈ g →
    compare_paths p q = .gt

/-! ## Helper lemmas -/

theorem Point.cmp_self (a : Point) : a.cmp a = .eq := by
  simp [Point.cmp]

theorem alist_lookup_set {α : Type} (l : List (Nat × α)) (k : Nat) (v : α) :
    alist_lookup (alist_set l k v) k = some v := by
  induction l with
  | nil => simp [alist_set, alist_lookup]
  | cons h t ih =>
    obtain ⟨k', v'⟩ := h
    by_cases hk : k' = k <;> simp [alist_set, alist_lookup, hk, ih]

theorem alist_set_set {α : Type} (l : List (Nat × α)) (k : Nat) (a b : α) :
    alist_set (alist_set l k a) k b = alist_set l k b := by
  induction l with
  | nil => simp [alist_set]
  | cons h t ih =>
    obtain ⟨k', v'⟩ := h
    by_cases hk : k' = k <;> simp [alist_set, hk, ih]

/-! ## C1 — idempotence of reconciliation -/

/-- C1: the claim that reconciling the same `(order, changes)` snapshot twice
in a row is idempotent (second call produces zero insertions, removals and
expansions) is violated by the code.  From `stC1` (file `f` stored with hunk
rows 2-4, shown by excerpt `1` with context rows 0-6), updating twice with
the same snapshot (the hunk moved to rows 30-35): the first pass classifies
the moved hunk as changed, hits the `(Less, Less)` arm and merely queues an
`Up` expansion of excerpt `1` (which never reaches the hunk), so after the
first pass the excerpt still covers rows 0-6 only; the second pass finds all
hunks unchanged, and the removal scan then removes excerpt `1` because it
overlaps no unchanged hunk — a non-empty removal set on the second pass. -/
theorem second_identical_reconciliation_removes_an_excerpt :
    (update_excerpts (update_excerpts stC1 1 ncC1 noC1) 1 ncC1 noC1).excerpts.excerpts = []
    ∧ (update_excerpts stC1 1 ncC1 noC1).excerpts.excerpts
        = [⟨1, bufC1, ⟨⟨0, 0⟩, ⟨6, 0⟩⟩, none⟩] := by
  constructor <;> rfl

/-! ## C2 — ordering of batched insertions sharing one anchor -/

/-- C2: the claim that insertions sharing the same `latest_excerpt_id` anchor
are kept sorted ascending by path, giving path order in the document, is
violated.  The comparator passed to `binary_search_by` receives the probe as
its second argument, so the group vector is maintained sorted descending: at
`stC2` (only `c` tracked) with new files `a` and `b` both anchored at
`ExcerptId::min()`, the queued group holds `b` before `a`, and applying the
queues yields document buffer order `b, a, c` (buffer ids `[2, 1, 3]`)
instead of path order `a, b, c`. -/
theorem same_anchor_insertions_applied_in_reverse_path_order :
    ((compute_queues stC2.excerpts [(3, ⟨.Modified, bufC, [⟨⟨⟨10, 0⟩, ⟨12, 0⟩⟩⟩]⟩)]
        ncC2 [(["c"], 3)] noC2).new_excerpt_hunks.map
          (fun g => (g.1, g.2.map (fun e => e.1))))
      = [(ExcerptId.min, [["b"], ["a"]])]
    ∧ (update_excerpts stC2 1 ncC2 noC2).excerpts.excerpts.map (fun e => e.buffer.bufId)
      = [2, 1, 3] := by
  constructor <;> rfl

/-! ## C4 — expansion amount and direction -/

/-- C4: the claim that the queued expansion direction follows the edges the
hunk exceeds (with line count `max(edge distance, DEFAULT_MULTIBUFFER_CONTEXT)`)
is violated by the code.  For excerpt `1` with context rows 10-20 and a
changed hunk at rows 15-25 — the hunk exceeds only the excerpt's *end* —
the `(Less, Less)` arm queues `(DEFAULT_MULTIBUFFER_CONTEXT, Up)` (the row
distance it computes, start-to-start, saturates to zero), not the
`(max 5 DEFAULT_MULTIBUFFER_CONTEXT, Down)` expansion the claim requires. -/
theorem hunk_past_excerpt_end_queues_up_expansion :
    (reconcile_one_hunk ["f"] bufC1 [⟨⟨15, 0⟩, ⟨25, 0⟩⟩] ⟨⟨15, 0⟩, ⟨25, 0⟩⟩
        [(1, ⟨⟨10, 0⟩, ⟨20, 0⟩⟩)] initial_queues []).2.1.excerpt_to_expand
      = [((DEFAULT_MULTIBUFFER_CONTEXT, ExpandExcerptDirection.Up), [1])] := by
  rfl

/-! ## C6 — effect of a root-removal notification -/

/-- C6 counterexample: a `WorktreeRemoved(7)` notification does *not* evict
all state for root `7`: the entry order and the pending rescan task survive
(only the `buffer_changes` entry is removed, and no rescan is scheduled). -/
theorem worktree_removed_keeps_order_and_task :
    (handle_project_event stC6 (.WorktreeRemoved 7)).entry_order = [(7, [(["x"], 1)])]
    ∧ (handle_project_event stC6 (.WorktreeRemoved 7)).worktree_rescans = [7]
    ∧ (handle_project_event stC6 (.WorktreeRemoved 7)).buffer_changes = [] := by
  refine ⟨rfl, rfl, rfl⟩

/-- C6 (amended): on `WorktreeRemoved(id)` exactly the root's `Changes` map
is evicted, immediately and synchronously; the root's entry order and any
pending rescan task are retained unchanged, and no rescan is scheduled. -/
theorem worktree_removed_evicts_only_changes (st : ProjectDiffEditor) (id : Nat) :
    handle_project_event st (.WorktreeRemoved id)
      = { st with buffer_changes := alist_remove st.buffer_changes id } := by
  rfl

/-! ## C7 — the "has any changes" boolean -/

/-- C7 counterexample: the boolean the rendering layer branches on is `true`
for `stC7` although every root's `Changes` map is empty — no tracked file
has recorded changes — because the code tests emptiness of the *outer*
per-root map only. -/
theorem has_any_changes_true_without_changes :
    has_any_changes stC7 = true
    ∧ stC7.buffer_changes.all (fun p => p.2.isEmpty) = true := by
  exact ⟨rfl, rfl⟩

/-- C7 (amended): the "has any changes" boolean controlling the tab label
and empty-view placeholder is true iff the outer changes map contains at
least one root entry — even one whose per-file `Changes` map is empty. -/
theorem has_any_changes_iff_some_root_entry (st : ProjectDiffEditor) :
    has_any_changes st = true ↔ st.buffer_changes ≠ [] := by
  cases h : st.buffer_changes <;> simp [has_any_changes, h]

/-! ## C3 — hunk classification -/

/-- Matching one new hunk against the old-hunk cursor never invents entries:
it either consumes nothing or drops a prefix of the cursor, and the hunk is
put in exactly one bucket; folded over the new list the two buckets together
are a permutation of the new hunks. -/
theorem classify_new_hunks_perm : ∀ (new cur : List PRange),
    ((classify_new_hunks cur new).1 ++ (classify_new_hunks cur new).2).Perm new
  | [], cur => by simp [classify_new_hunks]
  | nh :: rest, cur => by
    unfold classify_new_hunks
    rcases h : classify_step nh cur with ⟨b, cur'⟩
    have ih := classify_new_hunks_perm rest cur'
    rcases hc : classify_new_hunks cur' rest with ⟨u, w⟩
    rw [hc] at ih
    cases b
    · simp only [hc]
      exact List.Perm.trans List.perm_middle (List.Perm.cons nh ih)
    · simp only [hc]
      simpa using List.Perm.cons nh ih

/-- A new hunk list identical to the stored one is classified wholly
unchanged: each head matches the cursor front exactly, and only such exact
matches advance the cursor. -/
theorem classify_new_hunks_self : ∀ hs : List PRange, classify_new_hunks hs hs = (hs, [])
  | [] => rfl
  | nh :: rest => by
    unfold classify_new_hunks classify_step
    simp [Point.cmp_self, classify_new_hunks_self rest]

/-- C3 counterexample: the claim says a new hunk whose start and end anchors
both compare equal to *an* old hunk's is classified unchanged.  With old
hunks rows 0-5 and 10-12 and new hunks rows 0-6 and 10-12, the new hunk
10-12 is endpoint-identical to the old hunk 10-12, yet both new hunks are
classified changed (`new_hunks_unchanged` is empty): the old-hunk cursor is
still parked at 0-5 (it advances only past exact matches), and against that
front the `(Less, Less)` overlap test `start <= new.end` is satisfied. -/
theorem equal_endpoint_hunk_classified_changed :
    (⟨⟨10, 0⟩, ⟨12, 0⟩⟩ : PRange) ∈ oldHunksC3
    ∧ classify_new_hunks oldHunksC3 newHunksC3 = ([], newHunksC3) := by
  exact ⟨by decide, rfl⟩

/-- C3 (amended): each new hunk is classified against the current *front* of
the old-hunk cursor, which advances only past exactly-matched old hunks: a
new hunk whose start and end both compare equal to the cursor front is
"unchanged" (consuming the front), every other new hunk — sharing an
endpoint with the front, overlapping it, or disjoint from it — is
"changed"/"new" and queued for boundary reconciliation; no new hunk is
dropped (the two buckets are a permutation of the new hunk list), and a new
hunk list identical to the stored one is wholly unchanged. -/
theorem hunk_classification_is_cursor_based :
    (∀ cur new : List PRange,
      ((classify_new_hunks cur new).1 ++ (classify_new_hunks cur new).2).Perm new)
    ∧ (∀ hs : List PRange, classify_new_hunks hs hs = (hs, [])) :=
  ⟨fun cur new => classify_new_hunks_perm new cur, classify_new_hunks_self⟩

/-! ## C8 — buffer-load failures are skipped, not fatal -/

/-- C8: during the buffer-loading step, a file whose open fails or that is
not a plain text buffer is dropped from the pass, and every successfully
opened text buffer in the batch is kept: a quadruple is in the loaded list
iff the corresponding task resolved to a text buffer.  One file's failure
never aborts the rescan nor removes other files from the result. -/
theorem load_keeps_exactly_successful_text_buffers
    (tasks : List (GitFileStatus × Nat × ProjectPath × OpenedModel))
    (s : GitFileStatus) (i : Nat) (p : ProjectPath) (b : Buffer) :
    (s, i, p, b) ∈ load_buffers_with_git_diff tasks
      ↔ (s, i, p, OpenedModel.textBuffer b) ∈ tasks := by
  induction tasks with
  | nil => simp [load_buffers_with_git_diff]
  | cons t rest ih =>
    obtain ⟨s', i', p', m⟩ := t
    cases m <;> simp [load_buffers_with_git_diff, ih]

/-! ## C5 — apply-phase structure and insertion padding -/

theorem mk_excerpts_mem (b : Buffer) :
    ∀ (i : Nat) (cs : List PRange) (ex : Excerpt), ex ∈ mk_excerpts b i cs →
      ex.buffer = b ∧ ex.context ∈ cs ∧ i ≤ ex.excerptId
  | i, [], ex => by simp [mk_excerpts]
  | i, c :: cs, ex => by
    intro h
    rcases List.mem_cons.mp h with h | h
    · subst h; simp
    · have := mk_excerpts_mem b (i + 1) cs ex h
      exact ⟨this.1, List.mem_cons_of_mem _ this.2.1, by omega⟩

theorem place_after_mem (eid : Nat) (ns : List Excerpt) :
    ∀ (l : List Excerpt) (x : Excerpt), x ∈ place_after eid ns l → x ∈ l ∨ x ∈ ns
  | [], x => by simp [place_after]
  | e :: rest, x => by
    intro h
    unfold place_after at h
    by_cases he : e.excerptId = eid <;> simp [he] at h
    · rcases h with h | h | h
      · exact Or.inl (by simp [h])
      · exact Or.inr h
      · exact Or.inl (List.mem_cons_of_mem _ h)
    · rcases h with h | h
      · exact Or.inl (by simp [h])
      · rcases place_after_mem eid ns rest x h with h | h
        · exact Or.inl (List.mem_cons_of_mem _ h)
        · exact Or.inr h

theorem insert_excerpts_after_mem (mb : MultiBuffer) (a : Nat) (b : Buffer)
    (ctxs : List PRange) (ex : Excerpt)
    (h : ex ∈ ((insert_excerpts_after mb a b ctxs).1).excerpts) :
    ex ∈ mb.excerpts ∨ (ex.buffer = b ∧ ex.context ∈ ctxs ∧ mb.nextId ≤ ex.excerptId) := by
  unfold insert_excerpts_after at h
  simp only at h
  split at h
  · rcases place_after_mem a (mk_excerpts b mb.nextId ctxs) mb.excerpts ex h with h | h
    · exact Or.inl h
    · exact Or.inr (mk_excerpts_mem b mb.nextId ctxs ex h)
  · rcases List.mem_append.mp h with h | h
    · exact Or.inr (mk_excerpts_mem b mb.nextId ctxs ex h)
    · exact Or.inl h

theorem apply_insert_group_mem :
    ∀ (g : List GroupEntry) (mb : MultiBuffer) (a : Nat) (ex : Excerpt),
      ex ∈ (apply_insert_group g mb a).excerpts →
      ex ∈ mb.excerpts ∨ ∃ p b rs, (p, b, rs) ∈ g ∧ ex.buffer = b ∧
        ∃ r ∈ rs, ex.context = pad_clip b.maxPoint r
  | [], mb, a, ex => by
    intro h
    exact Or.inl h
  | (p, b, rs) :: rest, mb, a, ex => by
    intro h
    unfold apply_insert_group at h
    simp only at h
    rcases apply_insert_group_mem rest _ _ ex h with h | h
    · rcases insert_excerpts_after_mem mb a b (rs.map (pad_clip b.maxPoint)) ex h with h | h
      · exact Or.inl h
      · rcases List.mem_map.mp h.2.1 with ⟨r, hr, hctx⟩
        exact Or.inr ⟨p, b, rs, List.mem_cons_self _ _, h.1, r, hr, hctx.symm⟩
    · rcases h with ⟨p', b', rs', hmem, hb, hr⟩
      exact Or.inr ⟨p', b', rs', List.mem_cons_of_mem _ hmem, hb, hr⟩

theorem insert_phase_mem :
    ∀ (groups : List (Nat × List GroupEntry)) (mb : MultiBuffer) (ex : Excerpt),
      ex ∈ (insert_phase groups mb).excerpts →
      ex ∈ mb.excerpts ∨ ∃ k g, (k, g) ∈ groups ∧ ∃ p b rs, (p, b, rs) ∈ g ∧
        ex.buffer = b ∧ ∃ r ∈ rs, ex.context = pad_clip b.maxPoint r
  | [], mb, ex => by
    intro h
    exact Or.inl h
  | (k, g) :: rest, mb, ex => by
    intro h
    unfold insert_phase at h
    rcases insert_phase_mem rest _ ex h with h | h
    · rcases apply_insert_group_mem g mb k ex h with h | h
      · exact Or.inl h
      · exact Or.inr ⟨k, g, List.mem_cons_self _ _, h⟩
    · rcases h with ⟨k', g', hmem, hrest⟩
      exact Or.inr ⟨k', g', List.mem_cons_of_mem _ hmem, hrest⟩

/-- C5: in the apply phase of every steady-state reconciliation, the new
merged document is obtained by applying all queued insertions first, then
all queued removals, then all queued expansions, in one mutation of the
`excerpts` model (the single `self.excerpts.update` closure); and every
excerpt created by the insertion phase has a context range equal to a queued
hunk range padded by `DEFAULT_MULTIBUFFER_CONTEXT` rows on both sides and
clipped to the buffer's bounds (`pad_clip`). -/
theorem apply_phase_inserts_then_removes_then_expands
    (st : ProjectDiffEditor) (wid : Nat) (nc : List (Nat × Changes))
    (no cur : List (ProjectPath × Nat))
    (h : alist_lookup st.entry_order wid = some cur) :
    ((update_excerpts st wid nc no).excerpts =
      expand_phase (steady_queues st wid nc no cur).excerpt_to_expand
        (remove_excerpts
          (insert_phase (steady_queues st wid nc no cur).new_excerpt_hunks st.excerpts)
          (steady_queues st wid nc no cur).excerpts_to_remove))
    ∧ ∀ ex ∈ (insert_phase (steady_queues st wid nc no cur).new_excerpt_hunks
        st.excerpts).excerpts,
      ex ∈ st.excerpts.excerpts ∨
      ∃ k g, (k, g) ∈ (steady_queues st wid nc no cur).new_excerpt_hunks ∧
        ∃ p b rs, (p, b, rs) ∈ g ∧ ex.buffer = b ∧
          ∃ r ∈ rs, ex.context = pad_clip b.maxPoint r := by
  constructor
  · simp [update_excerpts, steady_queues, h]
  · intro ex hex
    exact insert_phase_mem _ _ ex hex

/-- Closed witness for the apply-phase theorem at the concrete C1 state. -/
theorem apply_phase_inserts_then_removes_then_expands_witness :
    ((update_excerpts stC1 1 ncC1 noC1).excerpts =
      expand_phase (steady_queues stC1 1 ncC1 noC1 [(["f"], 1)]).excerpt_to_expand
        (remove_excerpts
          (insert_phase (steady_queues stC1 1 ncC1 noC1 [(["f"], 1)]).new_excerpt_hunks
            stC1.excerpts)
          (steady_queues stC1 1 ncC1 noC1 [(["f"], 1)]).excerpts_to_remove))
    ∧ ∀ ex ∈ (insert_phase (steady_queues stC1 1 ncC1 noC1 [(["f"], 1)]).new_excerpt_hunks
        stC1.excerpts).excerpts,
      ex ∈ stC1.excerpts.excerpts ∨
      ∃ k g, (k, g) ∈ (steady_queues stC1 1 ncC1 noC1 [(["f"], 1)]).new_excerpt_hunks ∧
        ∃ p b rs, (p, b, rs) ∈ g ∧ ex.buffer = b ∧
          ∃ r ∈ rs, ex.context = pad_clip b.maxPoint r :=
  apply_phase_inserts_then_removes_then_expands stC1 1 ncC1 noC1 [(["f"], 1)] rfl

/-! ## C10 — current files with missing or empty stored changes are skipped -/

theorem process_currents_skip (mb : MultiBuffer) (ents nc : List (Nat × Changes))
    (cp : ProjectPath) (ce : Nat)
    (hskip : alist_lookup ents ce = none
      ∨ ∃ ccs, alist_lookup ents ce = some ccs ∧ ccs.hunks = []) :
    ∀ (pre post news : List (ProjectPath × Nat)) (qs : QueueState),
      process_currents mb ents nc (pre ++ (cp, ce) :: post) news qs
        = process_currents mb ents nc (pre ++ post) news qs := by
  intro pre
  induction pre with
  | nil =>
    intro post news qs
    rcases hskip with h | ⟨ccs, h, hh⟩
    · simp [process_currents, h]
    · simp [process_currents, h, List.isEmpty_iff.mpr hh]
  | cons hd tl ih =>
    intro post news qs
    obtain ⟨cp', ce'⟩ := hd
    simp only [List.cons_append]
    unfold process_currents
    cases h : alist_lookup ents ce' with
    | none => exact ih post news qs
    | some ccs' =>
      by_cases hh : ccs'.hunks.isEmpty
      · simp only [hh, if_true]
        exact ih post news qs
      · simp only [hh, if_false]
        rcases hsn : step_news cp' ccs' nc (excerpts_for_buffer mb ccs'.buffer) news qs
          with ⟨news', qs'⟩
        exact ih post news' _

/-- C10: a file of the previous ordering whose stored `Changes` entry is
missing, or whose stored hunk list is empty, is skipped entirely by the
steady-state merge pass: the whole `update_excerpts` call produces exactly
the state it would produce if that file were absent from the stored entry
order — no removal or expansion is queued for it, the new-order cursor does
not advance on its account, and the merged document and stored maps come
out identical. -/
theorem skipped_current_file_is_inert
    (st : ProjectDiffEditor) (wid : Nat) (nc : List (Nat × Changes))
    (no pre post : List (ProjectPath × Nat)) (cp : ProjectPath) (ce : Nat)
    (hskip : alist_lookup ((alist_lookup st.buffer_changes wid).getD []) ce = none
      ∨ ∃ ccs, alist_lookup ((alist_lookup st.buffer_changes wid).getD []) ce = some ccs
          ∧ ccs.hunks = []) :
    update_excerpts
        { st with entry_order := alist_set st.entry_order wid (pre ++ (cp, ce) :: post) }
        wid nc no
      = update_excerpts
        { st with entry_order := alist_set st.entry_order wid (pre ++ post) }
        wid nc no := by
  unfold update_excerpts
  simp only [alist_lookup_set, compute_queues, alist_set_set]
  rw [process_currents_skip _ _ _ cp ce hskip]

/-- Closed witness: entry `99` has no stored changes in `stC1`, and splicing
it into the stored order leaves the reconciliation result unchanged. -/
theorem skipped_current_file_is_inert_witness :
    update_excerpts
        { stC1 with entry_order := alist_set stC1.entry_order 1 ([] ++ (["e"], 99) :: [(["f"], 1)]) }
        1 ncC1 noC1
      = update_excerpts
        { stC1 with entry_order := alist_set stC1.entry_order 1 ([] ++ [(["f"], 1)]) }
        1 ncC1 noC1 :=
  skipped_current_file_is_inert stC1 1 ncC1 noC1 [] [(["f"], 1)] ["e"] 99 (Or.inl rfl)

/-! ## C9 — group-vector and group-map lemmas -/

theorem group_insert_self (np : ProjectPath) (b : Buffer) (rs : List PRange) :
    ∀ g : List GroupEntry,
      (∀ q bb rs0, (q, bb, rs0) ∈ g → compare_paths np q ≠ .eq) →
      (np, b, rs) ∈ group_insert np b rs g
  | [], _ => by simp [group_insert]
  | (p', b', rs') :: rest, hne => by
    unfold group_insert
    cases h : compare_paths np p' with
    | lt =>
      exact List.mem_cons_of_mem _
        (group_insert_self np b rs rest fun q bb rs0 hq => hne q bb rs0 (List.mem_cons_of_mem _ hq))
    | eq => exact absurd h (hne p' b' rs' (List.mem_cons_self _ _))
    | gt => exact List.mem_cons_self _ _

theorem group_insert_mem_preserved (np : ProjectPath) (b : Buffer) (rs : List PRange)
    (q : ProjectPath) (bb : Buffer) (rs0 : List PRange) :
    ∀ g : List GroupEntry, (q, bb, rs0) ∈ g →
      ∃ t, (q, bb, rs0 ++ t) ∈ group_insert np b rs g
  | [], h => absurd h (List.not_mem_nil _)
  | (p', b', rs') :: rest, h => by
    unfold group_insert
    rcases List.mem_cons.mp h with h | h
    · cases hc : compare_paths np p' with
      | lt => exact ⟨[], by simp [← h]⟩
      | eq =>
        refine ⟨rs, ?_⟩
        have h1 : q = p' ∧ bb = b' ∧ rs0 = rs' := by
          simpa [Prod.ext_iff] using h
        simp [h1.1, h1.2.1, h1.2.2]
      | gt => exact ⟨[], by simp [← h]⟩
    · cases hc : compare_paths np p' with
      | lt =>
        obtain ⟨t, ht⟩ := group_insert_mem_preserved np b rs q bb rs0 rest h
        exact ⟨t, List.mem_cons_of_mem _ ht⟩
      | eq => exact ⟨[], by simpa using Or.inr h⟩
      | gt => exact ⟨[], by simpa using Or.inr (Or.inr h)⟩

theorem group_insert_mem_src (np : ProjectPath) (b : Buffer) (rs : List PRange)
    (q : ProjectPath) (bb : Buffer) (rs0 : List PRange) :
    ∀ g : List GroupEntry, (q, bb, rs0) ∈ group_insert np b rs g →
      (q = np ∧ bb = b) ∨ ∃ rs1, (q, bb, rs1) ∈ g
  | [], h => by
    simp [group_insert, Prod.ext_iff] at h
    exact Or.inl ⟨h.1, h.2.1⟩
  | (p', b', rs') :: rest, h => by
    unfold group_insert at h
    cases hc : compare_paths np p' with
    | lt =>
      rw [hc] at h
      rcases List.mem_cons.mp h with h | h
      · exact Or.inr ⟨rs0, by simp [h]⟩
      · rcases group_insert_mem_src np b rs q bb rs0 rest h with h | ⟨rs1, h1⟩
        · exact Or.inl h
        · exact Or.inr ⟨rs1, List.mem_cons_of_mem _ h1⟩
    | eq =>
      rw [hc] at h
      rcases List.mem_cons.mp h with h | h
      · have h1 : q = p' ∧ bb = b' := by
          simpa [Prod.ext_iff] using ⟨congrArg Prod.fst h, congrArg Prod.fst (congrArg Prod.snd h)⟩
        exact Or.inr ⟨rs', by simp [h1.1, h1.2]⟩
      · exact Or.inr ⟨rs0, List.mem_cons_of_mem _ h⟩
    | gt =>
      rw [hc] at h
      rcases List.mem_cons.mp h with h | h
      · have h1 : q = np ∧ bb = b := by
          simpa [Prod.ext_iff] using ⟨congrArg Prod.fst h, congrArg Prod.fst (congrArg Prod.snd h)⟩
        exact Or.inl h1
      · exact Or.inr ⟨rs0, h⟩

theorem btree_update_mem_keys (k : Nat) (f : List GroupEntry → List GroupEntry) :
    ∀ (groups : List (Nat × List GroupEntry)) (x : Nat × List GroupEntry),
      x ∈ btree_update k f groups → x.1 = k ∨ ∃ g0, (x.1, g0) ∈ groups
  | [], x, h => by
    simp [btree_update] at h
    exact Or.inl (by simp [h])
  | (k', g') :: rest, x, h => by
    unfold btree_update at h
    by_cases h1 : k < k'
    · simp only [h1, if_true] at h
      rcases List.mem_cons.mp h with h | h
      · exact Or.inl (by simp [h])
      · rcases List.mem_cons.mp h with h | h
        · exact Or.inr ⟨g', by simp [h]⟩
        · exact Or.inr ⟨x.2, by simpa using Or.inr (by simpa using h)⟩
    · simp only [h1, if_false] at h
      by_cases h2 : k = k'
      · simp only [h2, if_true] at h
        rcases List.mem_cons.mp h with h | h
        · exact Or.inr ⟨g', by simp [h, h2]⟩
        · exact Or.inr ⟨x.2, by simpa using Or.inr (by simpa using h)⟩
      · simp only [h2, if_false] at h
        rcases List.mem_cons.mp h with h | h
        · exact Or.inr ⟨g', by simp [h]⟩
        · rcases btree_update_mem_keys k f rest x h with h | ⟨g0, h0⟩
          · exact Or.inl h
          · exact Or.inr ⟨g0, List.mem_cons_of_mem _ h0⟩

theorem btree_update_pairwise (k : Nat) (f : List GroupEntry → List GroupEntry) :
    ∀ groups : List (Nat × List GroupEntry),
      List.Pairwise (fun a b => a.1 < b.1) groups →
      List.Pairwise (fun a b => a.1 < b.1) (btree_update k f groups)
  | [], _ => by simp [btree_update]
  | (k', g') :: rest, hp => by
    rw [List.pairwise_cons] at hp
    unfold btree_update
    by_cases h1 : k < k'
    · simp only [h1, if_true]
      refine List.pairwise_cons.mpr ⟨?_, List.pairwise_cons.mpr hp⟩
      intro x hx
      rcases List.mem_cons.mp hx with h | h
      · simp [h]; omega
      · have := hp.1 x h
        simp only [] at this ⊢
        omega
    · simp only [h1, if_false]
      by_cases h2 : k = k'
      · simp only [h2, if_true]
        exact List.pairwise_cons.mpr ⟨fun x hx => hp.1 x hx, hp.2⟩
      · simp only [h2, if_false]
        refine List.pairwise_cons.mpr ⟨?_, btree_update_pairwise k f rest hp.2⟩
        intro x hx
        rcases btree_update_mem_keys k f rest x hx with h | ⟨g0, h0⟩
        · simp only [h]; omega
        · exact hp.1 (x.1, g0) h0

theorem btree_update_mem_preserved (k : Nat) (np : ProjectPath) (b : Buffer)
    (rs : List PRange) (k0 : Nat) (q : ProjectPath) (bb : Buffer) (rs0 : List PRange) :
    ∀ groups : List (Nat × List GroupEntry),
      (∃ g0, (k0, g0) ∈ groups ∧ (q, bb, rs0) ∈ g0) →
      ∃ g1 t, (k0, g1) ∈ btree_update k (group_insert np b rs) groups
        ∧ (q, bb, rs0 ++ t) ∈ g1
  | [], h => by
    obtain ⟨g0, hg, _⟩ := h
    exact absurd hg (List.not_mem_nil _)
  | (k', g') :: rest, h => by
    obtain ⟨g0, hg, hmem⟩ := h
    unfold btree_update
    by_cases h1 : k < k'
    · simp only [h1, if_true]
      exact ⟨g0, [], List.mem_cons_of_mem _ hg, by simpa using hmem⟩
    · simp only [h1, if_false]
      by_cases h2 : k = k'
      · simp only [h2, if_true]
        rcases List.mem_cons.mp hg with hg | hg
        · have hk : k0 = k' := congrArg Prod.fst hg
          have hge : g0 = g' := congrArg Prod.snd hg
          subst hk
          subst hge
          obtain ⟨t, ht⟩ := group_insert_mem_preserved np b rs q bb rs0 g0 hmem
          exact ⟨group_insert np b rs g0, t, List.mem_cons_self _ _, ht⟩
        · exact ⟨g0, [], List.mem_cons_of_mem _ hg, by simpa using hmem⟩
      · simp only [h2, if_false]
        rcases List.mem_cons.mp hg with hg | hg
        · have hk : k0 = k' := congrArg Prod.fst hg
          have hge : g0 = g' := congrArg Prod.snd hg
          subst hk
          subst hge
          exact ⟨g0, [], List.mem_cons_self _ _, by simpa using hmem⟩
        · obtain ⟨g1, t, hg1, hm1⟩ :=
            btree_update_mem_preserved k np b rs k0 q bb rs0 rest ⟨g0, hg, hmem⟩
          exact ⟨g1, t, List.mem_cons_of_mem _ hg1, hm1⟩

theorem btree_update_insert (k : Nat) (np : ProjectPath) (b : Buffer) (rs : List PRange) :
    ∀ groups : List (Nat × List GroupEntry),
      (∀ g0, (k, g0) ∈ groups → ∀ q bb rs0, (q, bb, rs0) ∈ g0 → compare_paths np q ≠ .eq) →
      ∃ g1, (k, g1) ∈ btree_update k (group_insert np b rs) groups ∧ (np, b, rs) ∈ g1
  | [], _ => by
    refine ⟨[(np, b, rs)], ?_, by simp⟩
    simp [btree_update, group_insert]
  | (k', g') :: rest, hne => by
    unfold btree_update
    by_cases h1 : k < k'
    · simp only [h1, if_true]
      exact ⟨group_insert np b rs [], List.mem_cons_self _ _, by simp [group_insert]⟩
    · simp only [h1, if_false]
      by_cases h2 : k = k'
      · simp only [h2, if_true]
        subst h2
        refine ⟨group_insert np b rs g', List.mem_cons_self _ _, ?_⟩
        exact group_insert_self np b rs g' (hne g' (List.mem_cons_self _ _))
      · simp only [h2, if_false]
        obtain ⟨g1, hg1, hm1⟩ := btree_update_insert k np b rs rest
          (fun g0 hg0 => hne g0 (List.mem_cons_of_mem _ hg0))
        exact ⟨g1, List.mem_cons_of_mem _ hg1, hm1⟩

theorem btree_update_mem_src (k : Nat) (f : List GroupEntry → List GroupEntry) :
    ∀ (groups : List (Nat × List GroupEntry)) (k0 : Nat) (g0 : List GroupEntry),
      (k0, g0) ∈ btree_update k f groups →
      (k0 = k ∧ (g0 = f [] ∨ ∃ g1, (k0, g1) ∈ groups ∧ g0 = f g1)) ∨ (k0, g0) ∈ groups
  | [], k0, g0, h => by
    simp [btree_update] at h
    exact Or.inl ⟨h.1, Or.inl h.2⟩
  | (k', g') :: rest, k0, g0, h => by
    unfold btree_update at h
    by_cases h1 : k < k'
    · simp only [h1, if_true] at h
      rcases List.mem_cons.mp h with h | h
      · have hk : k0 = k := congrArg Prod.fst h
        have hg : g0 = f [] := congrArg Prod.snd h
        exact Or.inl ⟨hk, Or.inl hg⟩
      · exact Or.inr h
    · simp only [h1, if_false] at h
      by_cases h2 : k = k'
      · simp only [h2, if_true] at h
        rcases List.mem_cons.mp h with h | h
        · have hk : k0 = k' := congrArg Prod.fst h
          have hg : g0 = f g' := congrArg Prod.snd h
          exact Or.inl ⟨by omega, Or.inr ⟨g', by simp [hk], hg⟩⟩
        · exact Or.inr (List.mem_cons_of_mem _ h)
      · simp only [h2, if_false] at h
        rcases List.mem_cons.mp h with h | h
        · exact Or.inr (by simp [h])
        · rcases btree_update_mem_src k f rest k0 g0 h with h | h
          · exact Or.inl ⟨h.1, by
              rcases h.2 with h3 | ⟨g1, hg1, hg2⟩
              · exact Or.inl h3
              · exact Or.inr ⟨g1, List.mem_cons_of_mem _ hg1, hg2⟩⟩
          · exact Or.inr (List.mem_cons_of_mem _ h)

theorem pairwise_zero_head (l : List (Nat × List GroupEntry)) (g : List GroupEntry)
    (hp : List.Pairwise (fun a b => a.1 < b.1) l) (hmem : (0, g) ∈ l) :
    ∃ t, l = (0, g) :: t ∧ ∀ x ∈ t, 0 < x.1 := by
  cases l with
  | nil => exact absurd hmem (List.not_mem_nil _)
  | cons hd t =>
    rw [List.pairwise_cons] at hp
    rcases List.mem_cons.mp hmem with h | h
    · refine ⟨t, by rw [← h], ?_⟩
      intro x hx
      have := hp.1 x hx
      rw [← h] at this
      simpa using this
    · have := hp.1 (0, g) h
      simp at this

/-! ## C9 — invariant preservation through the queue computation -/

theorem queueinv_set_expand (old : List Excerpt) (chb : Buffer) (p : ProjectPath)
    (qs : QueueState) (x : List ((Nat × ExpandExcerptDirection) × List Nat)) :
    QueueInv old chb p qs → QueueInv old chb p { qs with excerpt_to_expand := x } :=
  fun h => h

theorem queueinv_set_latest (old : List Excerpt) (chb : Buffer) (p : ProjectPath)
    (qs : QueueState) (x : Nat) :
    QueueInv old chb p qs → QueueInv old chb p { qs with latest_excerpt_id := x } :=
  fun h => h

theorem queued_min_set_expand (p : ProjectPath) (chb : Buffer) (qs : QueueState)
    (x : List ((Nat × ExpandExcerptDirection) × List Nat)) :
    queued_in_min_group p chb qs →
    queued_in_min_group p chb { qs with excerpt_to_expand := x } :=
  fun h => h

theorem queued_min_set_latest (p : ProjectPath) (chb : Buffer) (qs : QueueState) (x : Nat) :
    queued_in_min_group p chb qs →
    queued_in_min_group p chb { qs with latest_excerpt_id := x } :=
  fun h => h

theorem queued_min_remove_rest (p : ProjectPath) (chb : Buffer)
    (cursor : List (Nat × PRange)) (qs : QueueState) :
    queued_in_min_group p chb qs → queued_in_min_group p chb (remove_rest cursor qs) :=
  fun h => h

theorem queued_min_preserved_insert (p : ProjectPath) (chb : Buffer) (qs : QueueState)
    (np : ProjectPath) (b : Buffer) (rs : List PRange) :
    queued_in_min_group p chb qs →
    queued_in_min_group p chb (queue_insert_hunks qs np b rs) := by
  rintro ⟨g, hg, rs0, hne, hmem⟩
  obtain ⟨g1, t, hg1, hm1⟩ := btree_update_mem_preserved qs.latest_excerpt_id np b rs
    ExcerptId.min p chb rs0 qs.new_excerpt_hunks ⟨g, hg, hmem⟩
  refine ⟨g1, hg1, rs0 ++ t, ?_, hm1⟩
  simp [hne]

theorem queueinv_preserved_insert (old : List Excerpt) (chb : Buffer) (p : ProjectPath)
    (qs : QueueState) (np : ProjectPath) (b : Buffer) (rs : List PRange)
    (hpay : b ≠ chb ∨ (np = p ∧ qs.latest_excerpt_id = ExcerptId.min)) :
    QueueInv old chb p qs → QueueInv old chb p (queue_insert_hunks qs np b rs) := by
  rintro ⟨hpw, hib, hrm⟩
  refine ⟨btree_update_pairwise _ _ _ hpw, ?_, hrm⟩
  intro k g hg q bb rs0 hmem hbb
  have hqnp : q = np → bb = b → k = qs.latest_excerpt_id → k = ExcerptId.min ∧ q = p := by
    intro hq hbbe hke
    rcases hpay with hpay | ⟨hnp, hlat⟩
    · exact absurd (hbbe ▸ hbb) hpay
    · exact ⟨hke.trans hlat, hq.trans hnp⟩
  rcases btree_update_mem_src qs.latest_excerpt_id (group_insert np b rs)
      qs.new_excerpt_hunks k g hg with ⟨hk, hsrc⟩ | hg0
  · rcases hsrc with hge | ⟨g1, hg1, hge⟩
    · subst hge
      have hm : q = np ∧ bb = b ∧ rs0 = rs := by
        simpa [group_insert, Prod.ext_iff] using hmem
      exact hqnp hm.1 hm.2.1 hk
    · subst hge
      rcases group_insert_mem_src np b rs q bb rs0 g1 hmem with ⟨hq, hbbe⟩ | ⟨rs1, hm1⟩
      · exact hqnp hq hbbe hk
      · exact hib k g1 (hk ▸ hg1) q bb rs1 hm1 hbb
  · exact hib k g hg0 q bb rs0 hmem hbb

theorem pre_inv_preserved_insert (p : ProjectPath) (qs : QueueState)
    (np : ProjectPath) (b : Buffer) (rs : List PRange)
    (hgt : compare_paths p np = .gt) :
    pre_inv p qs → pre_inv p (queue_insert_hunks qs np b rs) := by
  intro hpre k g hg q bb rs0 hmem
  rcases btree_update_mem_src qs.latest_excerpt_id (group_insert np b rs)
      qs.new_excerpt_hunks k g hg with ⟨hk, hsrc⟩ | hg0
  · rcases hsrc with hge | ⟨g1, hg1, hge⟩
    · subst hge
      have hm : q = np ∧ bb = b ∧ rs0 = rs := by
        simpa [group_insert, Prod.ext_iff] using hmem
      exact hm.1 ▸ hgt
    · subst hge
      rcases group_insert_mem_src np b rs q bb rs0 g1 hmem with ⟨hq, _⟩ | ⟨rs1, hm1⟩
      · exact hq ▸ hgt
      · exact hpre k g1 (hk ▸ hg1) q bb rs1 hm1
  · exact hpre k g hg0 q bb rs0 hmem

theorem queueinv_remove_rest (old : List Excerpt) (chb : Buffer) (p : ProjectPath)
    (cursor : List (Nat × PRange)) (qs : QueueState)
    (hcur : ∀ i r, (i, r) ∈ cursor → ∃ exo ∈ old, i = exo.excerptId) :
    QueueInv old chb p qs → QueueInv old chb p (remove_rest cursor qs) := by
  rintro ⟨hpw, hib, hrm⟩
  refine ⟨hpw, hib, ?_⟩
  intro i hi
  unfold remove_rest at hi
  simp only [] at hi
  rcases List.mem_append.mp hi with hi | hi
  · exact hrm i hi
  · obtain ⟨⟨i', r⟩, hmem, hie⟩ := List.mem_map.mp hi
    exact hie ▸ hcur i' r hmem

theorem queue_scan_inv (old : List Excerpt) (chb : Buffer) (p : ProjectPath)
    (unchanged : List PRange) :
    ∀ (cursor : List (Nat × PRange)) (touched : List Nat) (qs : QueueState),
      (∀ i r, (i, r) ∈ cursor → ∃ exo ∈ old, i = exo.excerptId) →
      QueueInv old chb p qs →
      QueueInv old chb p (removal_scan unchanged cursor touched qs)
        ∧ (queued_in_min_group p chb qs →
            queued_in_min_group p chb (removal_scan unchanged cursor touched qs))
  | [], touched, qs, _, hinv => ⟨hinv, fun h => h⟩
  | (eid, er) :: rest, touched, qs, hcur, hinv => by
    unfold removal_scan
    have hcur' : ∀ i r, (i, r) ∈ rest → ∃ exo ∈ old, i = exo.excerptId :=
      fun i r hm => hcur i r (List.mem_cons_of_mem _ hm)
    by_cases hkeep : (touched.contains eid ||
        unchanged.any (fun h => (er.start.cmp h.stop).isLE && (er.stop.cmp h.start).isGE)) = true
    · rw [if_pos hkeep]
      exact queue_scan_inv old chb p unchanged rest touched _ hcur'
        (queueinv_set_latest _ _ _ _ _ hinv)
    · rw [if_neg hkeep]
      refine queue_scan_inv old chb p unchanged rest touched _ hcur' ?_
      rcases hinv with ⟨hpw, hib, hrm⟩
      refine ⟨hpw, hib, ?_⟩
      intro i hi
      simp only [] at hi
      rcases List.mem_append.mp hi with hi | hi
      · exact hrm i hi
      · have : i = eid := by simpa using hi
        exact this ▸ hcur eid er (List.mem_cons_self _ _)

theorem excerpts_for_buffer_old (mb : MultiBuffer) (b : Buffer) (i : Nat) (r : PRange)
    (h : (i, r) ∈ excerpts_for_buffer mb b) : ∃ exo ∈ mb.excerpts, i = exo.excerptId := by
  unfold excerpts_for_buffer at h
  obtain ⟨e, he, hie⟩ := List.mem_map.mp h
  exact ⟨e, List.mem_of_mem_filter he, (congrArg Prod.fst hie).symm⟩

theorem reconcile_one_hunk_inv (old : List Excerpt) (chb : Buffer) (p np : ProjectPath)
    (b : Buffer) (allRs : List PRange) (nh : PRange) (hpay : b ≠ chb) :
    ∀ (cursor : List (Nat × PRange)) (qs : QueueState) (touched : List Nat),
      QueueInv old chb p qs →
      QueueInv old chb p (reconcile_one_hunk np b allRs nh cursor qs touched).2.1
      ∧ (queued_in_min_group p chb qs →
          queued_in_min_group p chb (reconcile_one_hunk np b allRs nh cursor qs touched).2.1)
      ∧ ∀ x ∈ (reconcile_one_hunk np b allRs nh cursor qs touched).1, x ∈ cursor
  | [], qs, touched, hinv => by
    refine ⟨?_, ?_, by simp [reconcile_one_hunk]⟩
    · exact queueinv_preserved_insert old chb p qs np b allRs (Or.inl hpay) hinv
    · exact fun h => queued_min_preserved_insert p chb qs np b allRs h
  | (eid, er) :: rest, qs, touched, hinv => by
    rcases h1 : er.start.cmp nh.start with _ | _ | _ <;>
      rcases h2 : er.stop.cmp nh.stop with _ | _ | _ <;>
        simp only [reconcile_one_hunk, h1, h2]
    -- (lt, lt)
    · by_cases hle : (er.start.cmp nh.stop).isLE = true
      · rw [if_pos hle]
        exact ⟨queueinv_set_expand _ _ _ _ _ hinv, fun h => h, fun x hx => hx⟩
      · rw [if_neg hle]
        by_cases hemp : allRs.isEmpty = true
        · rw [if_pos hemp]
          exact ⟨hinv, fun h => h, fun x hx => hx⟩
        · rw [if_neg hemp]
          exact ⟨queueinv_preserved_insert old chb p qs np b allRs (Or.inl hpay) hinv,
            fun h => queued_min_preserved_insert p chb qs np b allRs h, fun x hx => hx⟩
    -- (lt, eq)
    · exact ⟨hinv, fun h => h, fun x hx => hx⟩
    -- (lt, gt)
    · exact ⟨hinv, fun h => h, fun x hx => hx⟩
    -- (eq, lt)
    · exact ⟨queueinv_set_expand _ _ _ _ _ hinv, fun h => h, fun x hx => hx⟩
    -- (eq, eq)
    · exact ⟨hinv, fun h => h, fun x hx => hx⟩
    -- (eq, gt)
    · exact ⟨hinv, fun h => h, fun x hx => hx⟩
    -- (gt, lt)
    · exact ⟨queueinv_set_expand _ _ _ _ _ hinv, fun h => h, fun x hx => hx⟩
    -- (gt, eq)
    · exact ⟨queueinv_set_expand _ _ _ _ _ hinv, fun h => h, fun x hx => hx⟩
    -- (gt, gt)
    · by_cases hge : (er.stop.cmp nh.start).isGE = true
      · rw [if_pos hge]
        exact ⟨queueinv_set_expand _ _ _ _ _ hinv, fun h => h, fun x hx => hx⟩
      · rw [if_neg hge]
        have ih := reconcile_one_hunk_inv old chb p np b allRs nh hpay rest
          { qs with latest_excerpt_id := eid } touched
          (queueinv_set_latest _ _ _ _ _ hinv)
        exact ⟨ih.1, fun h => ih.2.1 (queued_min_set_latest _ _ _ _ h),
          fun x hx => List.mem_cons_of_mem _ (ih.2.2 x hx)⟩

theorem reconcile_hunks_inv (old : List Excerpt) (chb : Buffer) (p np : ProjectPath)
    (b : Buffer) (allRs : List PRange) (hpay : b ≠ chb) :
    ∀ (hs : List PRange) (cursor : List (Nat × PRange)) (qs : QueueState) (touched : List Nat),
      QueueInv old chb p qs →
      QueueInv old chb p (reconcile_hunks np b allRs hs cursor qs touched).2.1
      ∧ (queued_in_min_group p chb qs →
          queued_in_min_group p chb (reconcile_hunks np b allRs hs cursor qs touched).2.1)
      ∧ ∀ x ∈ (reconcile_hunks np b allRs hs cursor qs touched).1, x ∈ cursor
  | [], cursor, qs, touched, hinv => ⟨hinv, fun h => h, fun x hx => hx⟩
  | nh :: hs, cursor, qs, touched, hinv => by
    have h1 := reconcile_one_hunk_inv old chb p np b allRs nh hpay cursor qs touched hinv
    rcases hr : reconcile_one_hunk np b allRs nh cursor qs touched with ⟨cursor1, qs1, touched1⟩
    rw [hr] at h1
    have h2 := reconcile_hunks_inv old chb p np b allRs hpay hs cursor1 qs1 touched1 h1.1
    simp only [reconcile_hunks, hr]
    exact ⟨h2.1, fun hmin => h2.2.1 (h1.2.1 hmin),
      fun x hx => h1.2.2 x (h2.2.2 x hx)⟩

theorem process_equal_inv (old : List Excerpt) (chb : Buffer) (p : ProjectPath)
    (ccs ncs : Changes) (np : ProjectPath) (cursor : List (Nat × PRange)) (qs : QueueState)
    (hpay : ncs.buffer ≠ chb)
    (hcur : ∀ i r, (i, r) ∈ cursor → ∃ exo ∈ old, i = exo.excerptId)
    (hinv : QueueInv old chb p qs) :
    QueueInv old chb p (process_equal ccs ncs np cursor qs)
    ∧ (queued_in_min_group p chb qs →
        queued_in_min_group p chb (process_equal ccs ncs np cursor qs)) := by
  unfold process_equal
  rcases hc : classify_new_hunks (ccs.hunks.map (fun h => h.buffer_range))
    (ncs.hunks.map (fun h => h.buffer_range)) with ⟨unchanged, with_updates⟩
  have h1 := reconcile_hunks_inv old chb p np ncs.buffer
    (ncs.hunks.map (fun h => h.buffer_range)) hpay with_updates cursor qs [] hinv
  rcases hr : reconcile_hunks np ncs.buffer (ncs.hunks.map (fun h => h.buffer_range))
    with_updates cursor qs [] with ⟨cursor1, qs1, touched1⟩
  rw [hr] at h1
  have hcur1 : ∀ i r, (i, r) ∈ cursor1 → ∃ exo ∈ old, i = exo.excerptId :=
    fun i r hm => hcur i r (h1.2.2 (i, r) hm)
  have h2 := queue_scan_inv old chb p unchanged cursor1 touched1 qs1 hcur1 h1.1
  simp only [hc, hr]
  exact ⟨h2.1, fun hmin => h2.2 (h1.2.1 hmin)⟩

theorem step_news_inv (old : List Excerpt) (chb : Buffer) (p cp : ProjectPath)
    (ccs : Changes) (nc : List (Nat × Changes)) (cursor : List (Nat × PRange))
    (hcur : ∀ i r, (i, r) ∈ cursor → ∃ exo ∈ old, i = exo.excerptId) :
    ∀ (news : List (ProjectPath × Nat)) (qs : QueueState),
      (∀ q e', (q, e') ∈ news → ∀ c', alist_lookup nc e' = some c' → c'.buffer ≠ chb) →
      QueueInv old chb p qs →
      QueueInv old chb p (step_news cp ccs nc cursor news qs).2
      ∧ (queued_in_min_group p chb qs →
          queued_in_min_group p chb (step_news cp ccs nc cursor news qs).2)
      ∧ ∀ x ∈ (step_news cp ccs nc cursor news qs).1, x ∈ news
  | [], qs, _, hinv => by
    refine ⟨?_, fun h => queued_min_remove_rest _ _ _ _ h, by simp [step_news]⟩
    exact queueinv_remove_rest old chb p cursor qs hcur hinv
  | (np, ne) :: rest, qs, hb, hinv => by
    have hbrest : ∀ q e', (q, e') ∈ rest →
        ∀ c', alist_lookup nc e' = some c' → c'.buffer ≠ chb :=
      fun q e' hm => hb q e' (List.mem_cons_of_mem _ hm)
    rcases hc : compare_paths cp np with _ | _ | _ <;> simp only [step_news, hc]
    -- lt
    · exact ⟨queueinv_remove_rest old chb p cursor qs hcur hinv,
        fun h => queued_min_remove_rest _ _ _ _ h, fun x hx => hx⟩
    -- eq
    · cases hl : alist_lookup nc ne with
      | none =>
        simp only [hl]
        exact ⟨queueinv_remove_rest old chb p cursor qs hcur hinv,
          fun h => queued_min_remove_rest _ _ _ _ h,
          fun x hx => List.mem_cons_of_mem _ hx⟩
      | some ncs =>
        simp only [hl]
        have hpay : ncs.buffer ≠ chb := hb np ne (List.mem_cons_self _ _) ncs hl
        have h1 := process_equal_inv old chb p ccs ncs np cursor qs hpay hcur hinv
        exact ⟨h1.1, h1.2, fun x hx => List.mem_cons_of_mem _ hx⟩
    -- gt
    · cases hl : alist_lookup nc ne with
      | none =>
        simp only [hl]
        have ih := step_news_inv old chb p cp ccs nc cursor hcur rest qs hbrest hinv
        exact ⟨ih.1, ih.2.1, fun x hx => List.mem_cons_of_mem _ (ih.2.2 x hx)⟩
      | some ncs =>
        simp only [hl]
        by_cases hemp : ncs.hunks.isEmpty = true
        · rw [if_pos hemp]
          have ih := step_news_inv old chb p cp ccs nc cursor hcur rest qs hbrest hinv
          exact ⟨ih.1, ih.2.1, fun x hx => List.mem_cons_of_mem _ (ih.2.2 x hx)⟩
        · rw [if_neg hemp]
          have hpay : ncs.buffer ≠ chb := hb np ne (List.mem_cons_self _ _) ncs hl
          have hinv1 := queueinv_preserved_insert old chb p qs np ncs.buffer
            (ncs.hunks.map (fun h => h.buffer_range)) (Or.inl hpay) hinv
          have ih := step_news_inv old chb p cp ccs nc cursor hcur rest _ hbrest hinv1
          refine ⟨ih.1, fun hmin => ih.2.1 ?_, fun x hx => List.mem_cons_of_mem _ (ih.2.2 x hx)⟩
          exact queued_min_preserved_insert p chb qs np ncs.buffer _ hmin

theorem process_currents_inv (old : List Excerpt) (chb : Buffer) (p : ProjectPath)
    (mb : MultiBuffer) (ents nc : List (Nat × Changes)) (hmb : mb.excerpts = old) :
    ∀ (cur news : List (ProjectPath × Nat)) (qs : QueueState),
      (∀ q e', (q, e') ∈ news → ∀ c', alist_lookup nc e' = some c' → c'.buffer ≠ chb) →
      QueueInv old chb p qs →
      QueueInv old chb p (process_currents mb ents nc cur news qs).2
      ∧ (queued_in_min_group p chb qs →
          queued_in_min_group p chb (process_currents mb ents nc cur news qs).2)
      ∧ ∀ x ∈ (process_currents mb ents nc cur news qs).1, x ∈ news
  | [], news, qs, _, hinv => ⟨hinv, fun h => h, fun x hx => hx⟩
  | (cp, ce) :: cs, news, qs, hb, hinv => by
    cases hl : alist_lookup ents ce with
    | none =>
      simp only [process_currents, hl]
      exact process_currents_inv old chb p mb ents nc hmb cs news qs hb hinv
    | some ccs =>
      simp only [process_currents, hl]
      by_cases hemp : ccs.hunks.isEmpty = true
      · rw [if_pos hemp]
        exact process_currents_inv old chb p mb ents nc hmb cs news qs hb hinv
      · rw [if_neg hemp]
        have hcur : ∀ i r, (i, r) ∈ excerpts_for_buffer mb ccs.buffer →
            ∃ exo ∈ old, i = exo.excerptId := by
          intro i r hm
          obtain ⟨exo, hexo, hie⟩ := excerpts_for_buffer_old mb ccs.buffer i r hm
          exact ⟨exo, hmb ▸ hexo, hie⟩
        have h1 := step_news_inv old chb p cp ccs nc (excerpts_for_buffer mb ccs.buffer)
          hcur news qs hb hinv
        rcases hsn : step_news cp ccs nc (excerpts_for_buffer mb ccs.buffer) news qs
          with ⟨news1, qs1⟩
        rw [hsn] at h1
        simp only [hsn]
        have hb1 : ∀ q e', (q, e') ∈ news1 →
            ∀ c', alist_lookup nc e' = some c' → c'.buffer ≠ chb :=
          fun q e' hm => hb q e' (h1.2.2 (q, e') hm)
        have ih := fun (x : Nat) => process_currents_inv old chb p mb ents nc hmb cs news1
          { qs1 with latest_excerpt_id := x } hb1 (queueinv_set_latest old chb p qs1 x h1.1)
        exact ⟨(ih _).1, fun hmin => (ih _).2.1 (queued_min_set_latest _ _ _ _ (h1.2.1 hmin)),
          fun x hx => h1.2.2 x ((ih _).2.2 x hx)⟩

theorem queue_leftovers_inv (old : List Excerpt) (chb : Buffer) (p : ProjectPath)
    (nc : List (Nat × Changes)) :
    ∀ (news : List (ProjectPath × Nat)) (qs : QueueState),
      (∀ q e', (q, e') ∈ news → ∀ c', alist_lookup nc e' = some c' → c'.buffer ≠ chb) →
      QueueInv old chb p qs →
      QueueInv old chb p (queue_leftovers nc news qs)
      ∧ (queued_in_min_group p chb qs →
          queued_in_min_group p chb (queue_leftovers nc news qs))
  | [], qs, _, hinv => ⟨hinv, fun h => h⟩
  | (np, ne) :: rest, qs, hb, hinv => by
    have hbrest : ∀ q e', (q, e') ∈ rest →
        ∀ c', alist_lookup nc e' = some c' → c'.buffer ≠ chb :=
      fun q e' hm => hb q e' (List.mem_cons_of_mem _ hm)
    cases hl : alist_lookup nc ne with
    | none =>
      simp only [queue_leftovers, hl]
      exact queue_leftovers_inv old chb p nc rest qs hbrest hinv
    | some ncs =>
      simp only [queue_leftovers, hl]
      by_cases hemp : ncs.hunks.isEmpty = true
      · rw [if_pos hemp]
        exact queue_leftovers_inv old chb p nc rest qs hbrest hinv
      · rw [if_neg hemp]
        have hpay : ncs.buffer ≠ chb := hb np ne (List.mem_cons_self _ _) ncs hl
        have hinv1 := queueinv_preserved_insert old chb p qs np ncs.buffer
          (ncs.hunks.map (fun h => h.buffer_range)) (Or.inl hpay) hinv
        have ih := queue_leftovers_inv old chb p nc rest _ hbrest hinv1
        exact ⟨ih.1, fun hmin =>
          ih.2 (queued_min_preserved_insert p chb qs np ncs.buffer _ hmin)⟩

theorem step_news_consumes_p (old : List Excerpt) (chb : Buffer) (p cp : ProjectPath)
    (e : Nat) (ch : Changes) (ccs : Changes) (nc : List (Nat × Changes))
    (cursor : List (Nat × PRange))
    (hch : alist_lookup nc e = some ch) (hchb : ch.buffer = chb)
    (hne : ¬ ch.hunks.isEmpty = true)
    (hcp : compare_paths cp p = .gt)
    (hcur : ∀ i r, (i, r) ∈ cursor → ∃ exo ∈ old, i = exo.excerptId) :
    ∀ (pre rest : List (ProjectPath × Nat)) (qs : QueueState),
      (∀ q e', (q, e') ∈ pre → compare_paths cp q = .gt) →
      (∀ q e', (q, e') ∈ pre → compare_paths p q = .gt) →
      (∀ q e', (q, e') ∈ pre → ∀ c', alist_lookup nc e' = some c' → c'.buffer ≠ chb) →
      (∀ q e', (q, e') ∈ rest → ∀ c', alist_lookup nc e' = some c' → c'.buffer ≠ chb) →
      qs.latest_excerpt_id = ExcerptId.min →
      QueueInv old chb p qs → pre_inv p qs →
      QueueInv old chb p (step_news cp ccs nc cursor (pre ++ (p, e) :: rest) qs).2
      ∧ queued_in_min_group p chb (step_news cp ccs nc cursor (pre ++ (p, e) :: rest) qs).2
      ∧ ∀ x ∈ (step_news cp ccs nc cursor (pre ++ (p, e) :: rest) qs).1, x ∈ rest
  | [], rest, qs, _, _, _, hbrest, hlat, hinv, hpre => by
    simp only [List.nil_append, step_news, hcp, hch]
    rw [if_neg hne]
    have hmin1 : queued_in_min_group p chb
        (queue_insert_hunks qs p ch.buffer (ch.hunks.map (fun h => h.buffer_range))) := by
      obtain ⟨g1, hg1, hm1⟩ := btree_update_insert qs.latest_excerpt_id p ch.buffer
        (ch.hunks.map (fun h => h.buffer_range)) qs.new_excerpt_hunks
        (fun g0 hg0 q bb rs0 hmem =>
          fun heq => by simpa [heq] using hpre qs.latest_excerpt_id g0 hg0 q bb rs0 hmem)
      refine ⟨g1, ?_, ch.hunks.map (fun h => h.buffer_range), ?_, hchb ▸ hm1⟩
      · exact hlat ▸ hg1
      · simpa using fun h => hne (by simp [h])
    have hinv1 := queueinv_preserved_insert old chb p qs p ch.buffer
      (ch.hunks.map (fun h => h.buffer_range)) (Or.inr ⟨rfl, hlat⟩) ?_
    · have h2 := step_news_inv old chb p cp ccs nc cursor hcur rest _ hbrest hinv1
      exact ⟨h2.1, h2.2.1 hmin1, h2.2.2⟩
    · exact hinv
  | (qh, eh) :: pre', rest, qs, hcpq, hpq, hbpre, hbrest, hlat, hinv, hpre => by
    have hgt : compare_paths cp qh = .gt := hcpq qh eh (List.mem_cons_self _ _)
    have hcpq' : ∀ q e', (q, e') ∈ pre' → compare_paths cp q = .gt :=
      fun q e' hm => hcpq q e' (List.mem_cons_of_mem _ hm)
    have hpq' : ∀ q e', (q, e') ∈ pre' → compare_paths p q = .gt :=
      fun q e' hm => hpq q e' (List.mem_cons_of_mem _ hm)
    have hbpre' : ∀ q e', (q, e') ∈ pre' →
        ∀ c', alist_lookup nc e' = some c' → c'.buffer ≠ chb :=
      fun q e' hm => hbpre q e' (List.mem_cons_of_mem _ hm)
    simp only [List.cons_append, step_news, hgt]
    cases hl : alist_lookup nc eh with
    | none =>
      simp only [hl]
      exact step_news_consumes_p old chb p cp e ch ccs nc cursor hch hchb hne hcp hcur
        pre' rest qs hcpq' hpq' hbpre' hbrest hlat hinv hpre
    | some ncs =>
      simp only [hl]
      by_cases hemp : ncs.hunks.isEmpty = true
      · rw [if_pos hemp]
        exact step_news_consumes_p old chb p cp e ch ccs nc cursor hch hchb hne hcp hcur
          pre' rest qs hcpq' hpq' hbpre' hbrest hlat hinv hpre
      · rw [if_neg hemp]
        have hpay : ncs.buffer ≠ chb := hbpre qh eh (List.mem_cons_self _ _) ncs hl
        have hq : compare_paths p qh = .gt := hpq qh eh (List.mem_cons_self _ _)
        exact step_news_consumes_p old chb p cp e ch ccs nc cursor hch hchb hne hcp hcur
          pre' rest _ hcpq' hpq' hbpre' hbrest hlat
          (queueinv_preserved_insert old chb p qs qh ncs.buffer _ (Or.inl hpay) hinv)
          (pre_inv_preserved_insert p qs qh ncs.buffer _ hq hpre)

theorem queue_leftovers_consumes_p (old : List Excerpt) (chb : Buffer) (p : ProjectPath)
    (e : Nat) (ch : Changes) (nc : List (Nat × Changes))
    (hch : alist_lookup nc e = some ch) (hchb : ch.buffer = chb)
    (hne : ¬ ch.hunks.isEmpty = true) :
    ∀ (pre rest : List (ProjectPath × Nat)) (qs : QueueState),
      (∀ q e', (q, e') ∈ pre → compare_paths p q = .gt) →
      (∀ q e', (q, e') ∈ pre → ∀ c', alist_lookup nc e' = some c' → c'.buffer ≠ chb) →
      (∀ q e', (q, e') ∈ rest → ∀ c', alist_lookup nc e' = some c' → c'.buffer ≠ chb) →
      qs.latest_excerpt_id = ExcerptId.min →
      QueueInv old chb p qs → pre_inv p qs →
      QueueInv old chb p (queue_leftovers nc (pre ++ (p, e) :: rest) qs)
      ∧ queued_in_min_group p chb (queue_leftovers nc (pre ++ (p, e) :: rest) qs)
  | [], rest, qs, _, _, hbrest, hlat, hinv, hpre => by
    simp only [List.nil_append, queue_leftovers, hch]
    rw [if_neg hne]
    have hmin1 : queued_in_min_group p chb
        (queue_insert_hunks qs p ch.buffer (ch.hunks.map (fun h => h.buffer_range))) := by
      obtain ⟨g1, hg1, hm1⟩ := btree_update_insert qs.latest_excerpt_id p ch.buffer
        (ch.hunks.map (fun h => h.buffer_range)) qs.new_excerpt_hunks
        (fun g0 hg0 q bb rs0 hmem =>
          fun heq => by simpa [heq] using hpre qs.latest_excerpt_id g0 hg0 q bb rs0 hmem)
      refine ⟨g1, ?_, ch.hunks.map (fun h => h.buffer_range), ?_, hchb ▸ hm1⟩
      · exact hlat ▸ hg1
      · simpa using fun h => hne (by simp [h])
    have hinv1 := queueinv_preserved_insert old chb p qs p ch.buffer
      (ch.hunks.map (fun h => h.buffer_range)) (Or.inr ⟨rfl, hlat⟩) hinv
    have h2 := queue_leftovers_inv old chb p nc rest _ hbrest hinv1
    exact ⟨h2.1, h2.2 hmin1⟩
  | (qh, eh) :: pre', rest, qs, hpq, hbpre, hbrest, hlat, hinv, hpre => by
    have hpq' : ∀ q e', (q, e') ∈ pre' → compare_paths p q = .gt :=
      fun q e' hm => hpq q e' (List.mem_cons_of_mem _ hm)
    have hbpre' : ∀ q e', (q, e') ∈ pre' →
        ∀ c', alist_lookup nc e' = some c' → c'.buffer ≠ chb :=
      fun q e' hm => hbpre q e' (List.mem_cons_of_mem _ hm)
    simp only [List.cons_append, queue_leftovers]
    cases hl : alist_lookup nc eh with
    | none =>
      simp only [hl]
      exact queue_leftovers_consumes_p old chb p e ch nc hch hchb hne pre' rest qs
        hpq' hbpre' hbrest hlat hinv hpre
    | some ncs =>
      simp only [hl]
      by_cases hemp : ncs.hunks.isEmpty = true
      · rw [if_pos hemp]
        exact queue_leftovers_consumes_p old chb p e ch nc hch hchb hne pre' rest qs
          hpq' hbpre' hbrest hlat hinv hpre
      · rw [if_neg hemp]
        have hpay : ncs.buffer ≠ chb := hbpre qh eh (List.mem_cons_self _ _) ncs hl
        have hq : compare_paths p qh = .gt := hpq qh eh (List.mem_cons_self _ _)
        exact queue_leftovers_consumes_p old chb p e ch nc hch hchb hne pre' rest _
          hpq' hbpre' hbrest hlat
          (queueinv_preserved_insert old chb p qs qh ncs.buffer _ (Or.inl hpay) hinv)
          (pre_inv_preserved_insert p qs qh ncs.buffer _ hq hpre)

theorem compute_queues_queues_p (old : List Excerpt) (chb : Buffer) (p : ProjectPath)
    (e : Nat) (ch : Changes) (mb : MultiBuffer) (ents nc : List (Nat × Changes))
    (hmb : mb.excerpts = old)
    (hch : alist_lookup nc e = some ch) (hchb : ch.buffer = chb)
    (hne : ¬ ch.hunks.isEmpty = true) :
    ∀ (cur : List (ProjectPath × Nat)) (pre rest : List (ProjectPath × Nat)) (qs : QueueState),
      (∀ cq ce', (cq, ce') ∈ cur → compare_paths cq p = .gt) →
      (∀ cq ce', (cq, ce') ∈ cur → ∀ q e', (q, e') ∈ pre → compare_paths cq q = .gt) →
      (∀ q e', (q, e') ∈ pre → compare_paths p q = .gt) →
      (∀ q e', (q, e') ∈ pre → ∀ c', alist_lookup nc e' = some c' → c'.buffer ≠ chb) →
      (∀ q e', (q, e') ∈ rest → ∀ c', alist_lookup nc e' = some c' → c'.buffer ≠ chb) →
      qs.latest_excerpt_id = ExcerptId.min →
      QueueInv old chb p qs → pre_inv p qs →
      QueueInv old chb p
        (queue_leftovers nc (process_currents mb ents nc cur (pre ++ (p, e) :: rest) qs).1
          (process_currents mb ents nc cur (pre ++ (p, e) :: rest) qs).2)
      ∧ queued_in_min_group p chb
        (queue_leftovers nc (process_currents mb ents nc cur (pre ++ (p, e) :: rest) qs).1
          (process_currents mb ents nc cur (pre ++ (p, e) :: rest) qs).2)
  | [], pre, rest, qs, _, _, hpq, hbpre, hbrest, hlat, hinv, hpre => by
    simp only [process_currents]
    exact queue_leftovers_consumes_p old chb p e ch nc hch hchb hne pre rest qs
      hpq hbpre hbrest hlat hinv hpre
  | (cp, ce) :: cs, pre, rest, qs, hcurp, hcurpre, hpq, hbpre, hbrest, hlat, hinv, hpre => by
    have hcurp' : ∀ cq ce', (cq, ce') ∈ cs → compare_paths cq p = .gt :=
      fun cq ce' hm => hcurp cq ce' (List.mem_cons_of_mem _ hm)
    have hcurpre' : ∀ cq ce', (cq, ce') ∈ cs →
        ∀ q e', (q, e') ∈ pre → compare_paths cq q = .gt :=
      fun cq ce' hm => hcurpre cq ce' (List.mem_cons_of_mem _ hm)
    cases hl : alist_lookup ents ce with
    | none =>
      simp only [process_currents, hl]
      exact compute_queues_queues_p old chb p e ch mb ents nc hmb hch hchb hne
        cs pre rest qs hcurp' hcurpre' hpq hbpre hbrest hlat hinv hpre
    | some ccs =>
      simp only [process_currents, hl]
      by_cases hemp : ccs.hunks.isEmpty = true
      · rw [if_pos hemp]
        exact compute_queues_queues_p old chb p e ch mb ents nc hmb hch hchb hne
          cs pre rest qs hcurp' hcurpre' hpq hbpre hbrest hlat hinv hpre
      · rw [if_neg hemp]
        have hcur : ∀ i r, (i, r) ∈ excerpts_for_buffer mb ccs.buffer →
            ∃ exo ∈ old, i = exo.excerptId := by
          intro i r hm
          obtain ⟨exo, hexo, hie⟩ := excerpts_for_buffer_old mb ccs.buffer i r hm
          exact ⟨exo, hmb ▸ hexo, hie⟩
        have hsn := step_news_consumes_p old chb p cp e ch ccs nc
          (excerpts_for_buffer mb ccs.buffer) hch hchb hne
          (hcurp cp ce (List.mem_cons_self _ _)) hcur pre rest qs
          (fun q e' hm => hcurpre cp ce (List.mem_cons_self _ _) q e' hm)
          hpq hbpre hbrest hlat hinv hpre
        rcases hs : step_news cp ccs nc (excerpts_for_buffer mb ccs.buffer)
          (pre ++ (p, e) :: rest) qs with ⟨news1, qs1⟩
        rw [hs] at hsn
        simp only [hs]
        have hb1 : ∀ q e', (q, e') ∈ news1 →
            ∀ c', alist_lookup nc e' = some c' → c'.buffer ≠ chb :=
          fun q e' hm => hbrest q e' (hsn.2.2 (q, e') hm)
        have hpc := fun (x : Nat) => process_currents_inv old chb p mb ents nc hmb cs news1
          { qs1 with latest_excerpt_id := x } hb1 (queueinv_set_latest old chb p qs1 x hsn.1)
        rcases hpcr : process_currents mb ents nc cs news1
            { qs1 with latest_excerpt_id :=
                (((excerpts_for_buffer mb ccs.buffer).map Prod.fst).getLast?.getD
                  qs1.latest_excerpt_id) } with ⟨news2, qs2⟩
        have hpc2 := hpc ((((excerpts_for_buffer mb ccs.buffer).map Prod.fst).getLast?.getD
          qs1.latest_excerpt_id))
        rw [hpcr] at hpc2
        simp only [hpcr]
        have hb2 : ∀ q e', (q, e') ∈ news2 →
            ∀ c', alist_lookup nc e' = some c' → c'.buffer ≠ chb :=
          fun q e' hm => hb1 q e' (hpc2.2.2 (q, e') hm)
        have hql := queue_leftovers_inv old chb p nc news2 qs2 hb2 hpc2.1
        exact ⟨hql.1, hql.2 (hpc2.2.1 (queued_min_set_latest _ _ _ _ (hsn.2.1)))⟩

/-! ## C9 — apply-phase placement lemmas -/

theorem place_after_append_left (eid : Nat) (ns : List Excerpt) :
    ∀ (l1 l2 : List Excerpt), l1.any (fun e => e.excerptId = eid) = true →
      place_after eid ns (l1 ++ l2) = place_after eid ns l1 ++ l2
  | [], l2, h => by simp at h
  | e :: t, l2, h => by
    unfold place_after
    by_cases he : e.excerptId = eid
    · simp [he]
    · have ht : t.any (fun x => x.excerptId = eid) = true := by
        simp only [List.any_cons, Bool.or_eq_true] at h
        rcases h with h | h
        · exact absurd (of_decide_eq_true h) he
        · exact h
      simp [he, place_after_append_left eid ns t l2 ht]

theorem place_after_append_right (eid : Nat) (ns : List Excerpt) :
    ∀ (l1 l2 : List Excerpt), (∀ x ∈ l1, x.excerptId ≠ eid) →
      place_after eid ns (l1 ++ l2) = l1 ++ place_after eid ns l2
  | [], l2, _ => by simp
  | e :: t, l2, h => by
    have he : ¬ e.excerptId = eid := h e (List.mem_cons_self _ _)
    simp only [List.cons_append, place_after, he, if_false]
    exact congrArg (e :: ·)
      (place_after_append_right eid ns t l2 (fun x hx => h x (List.mem_cons_of_mem _ hx)))

theorem place_after_mem_of_mem (eid : Nat) (ns : List Excerpt) :
    ∀ (l : List Excerpt) (x : Excerpt), x ∈ l → x ∈ place_after eid ns l
  | [], x, h => absurd h (List.not_mem_nil _)
  | e :: t, x, h => by
    unfold place_after
    by_cases he : e.excerptId = eid
    · simp only [he, if_true]
      rcases List.mem_cons.mp h with h | h
      · exact h ▸ List.mem_cons_self _ _
      · exact List.mem_cons_of_mem _ (List.mem_append.mpr (Or.inr h))
    · simp only [he, if_false]
      rcases List.mem_cons.mp h with h | h
      · exact h ▸ List.mem_cons_self _ _
      · exact List.mem_cons_of_mem _ (place_after_mem_of_mem eid ns t x h)

theorem place_after_ns_mem (eid : Nat) (ns : List Excerpt) :
    ∀ (l : List Excerpt), l.any (fun e => e.excerptId = eid) = true →
      ∀ x ∈ ns, x ∈ place_after eid ns l
  | [], h => by simp at h
  | e :: t, h => by
    intro x hx
    unfold place_after
    by_cases he : e.excerptId = eid
    · simp only [he, if_true]
      exact List.mem_cons_of_mem _ (List.mem_append.mpr (Or.inl hx))
    · have ht : t.any (fun y => y.excerptId = eid) = true := by
        simp only [List.any_cons, Bool.or_eq_true] at h
        rcases h with h | h
        · exact absurd (of_decide_eq_true h) he
        · exact h
      simp only [he, if_false]
      exact List.mem_cons_of_mem _ (place_after_ns_mem eid ns t ht x hx)

theorem insert_excerpts_after_eq (mb : MultiBuffer) (afterId : Nat) (b : Buffer)
    (ctxs : List PRange) :
    insert_excerpts_after mb afterId b ctxs =
      (⟨if mb.excerpts.any (fun e => e.excerptId = afterId) = true then
          place_after afterId (mk_excerpts b mb.nextId ctxs) mb.excerpts
        else mk_excerpts b mb.nextId ctxs ++ mb.excerpts,
        mb.nextId + ctxs.length⟩,
       (mk_excerpts b mb.nextId ctxs).map (fun e => e.excerptId)) := rfl

theorem mk_excerpts_head (b : Buffer) (i : Nat) (c : PRange) (cs : List PRange) :
    (⟨i, b, c, none⟩ : Excerpt) ∈ mk_excerpts b i (c :: cs) := by
  unfold mk_excerpts
  exact List.mem_cons_self _ _

theorem apply_insert_group_front (OLD : List Excerpt) (N : Nat)
    (hold0 : ∀ exo ∈ OLD, exo.excerptId ≠ 0)
    (holdN : ∀ exo ∈ OLD, exo.excerptId < N)
    (hN : 0 < N) :
    ∀ (g : List GroupEntry) (mb : MultiBuffer) (afterId : Nat) (A : List Excerpt),
      mb.excerpts = A ++ OLD →
      N ≤ mb.nextId →
      (∀ x ∈ A, N ≤ x.excerptId) →
      (afterId = 0 ∨ ∃ x ∈ A, x.excerptId = afterId) →
      ∃ A', (apply_insert_group g mb afterId).excerpts = A' ++ OLD
        ∧ N ≤ (apply_insert_group g mb afterId).nextId
        ∧ (∀ x ∈ A', N ≤ x.excerptId)
        ∧ (∀ x ∈ A, x ∈ A')
        ∧ (∀ q bb rs, (q, bb, rs) ∈ g → rs ≠ [] → ∃ x ∈ A', x.buffer = bb)
  | [], mb, afterId, A, hsplit, hnext, hA, _ => by
    refine ⟨A, hsplit, hnext, hA, fun x hx => hx, ?_⟩
    intro q bb rs h _
    exact absurd h (List.not_mem_nil _)
  | (q0, b0, rs0) :: grest, mb, afterId, A, hsplit, hnext, hA, hanchor => by
    simp only [apply_insert_group, insert_excerpts_after_eq]
    set ctxs := rs0.map (pad_clip b0.maxPoint) with hctxs
    set ns := mk_excerpts b0 mb.nextId ctxs with hns
    have hnsprop : ∀ x ∈ ns, x.buffer = b0 ∧ mb.nextId ≤ x.excerptId :=
      fun x hx => ⟨(mk_excerpts_mem b0 mb.nextId ctxs x hx).1,
        (mk_excerpts_mem b0 mb.nextId ctxs x hx).2.2⟩
    have hnsN : ∀ x ∈ ns, N ≤ x.excerptId :=
      fun x hx => le_trans hnext (hnsprop x hx).2
    have hmain : ∃ A1, (if mb.excerpts.any (fun e => e.excerptId = afterId) = true then
          place_after afterId ns mb.excerpts
        else ns ++ mb.excerpts) = A1 ++ OLD
        ∧ (∀ x ∈ A1, N ≤ x.excerptId)
        ∧ (∀ x ∈ A, x ∈ A1) ∧ (∀ x ∈ ns, x ∈ A1) := by
      rcases hanchor with h0 | ⟨xa, hxa, hxid⟩
      · have hany : mb.excerpts.any (fun e => e.excerptId = afterId) = false := by
          rw [List.any_eq_false]
          intro x hx
          rw [hsplit] at hx
          subst h0
          rcases List.mem_append.mp hx with hx | hx
          · have := hA x hx
            simp only [decide_eq_true_eq]
            omega
          · simp only [decide_eq_true_eq]
            exact hold0 x hx
        rw [hany]
        simp only [Bool.false_eq_true, if_false]
        refine ⟨ns ++ A, by rw [hsplit, List.append_assoc], ?_, ?_, ?_⟩
        · intro x hx
          rcases List.mem_append.mp hx with hx | hx
          · exact hnsN x hx
          · exact hA x hx
        · exact fun x hx => List.mem_append.mpr (Or.inr hx)
        · exact fun x hx => List.mem_append.mpr (Or.inl hx)
      · have hanyA : A.any (fun e => e.excerptId = afterId) = true := by
          rw [List.any_eq_true]
          exact ⟨xa, hxa, by simp [hxid]⟩
        have hany : mb.excerpts.any (fun e => e.excerptId = afterId) = true := by
          rw [List.any_eq_true]
          exact ⟨xa, by rw [hsplit]; exact List.mem_append.mpr (Or.inl hxa), by simp [hxid]⟩
        rw [hany]
        simp only [if_true]
        rw [hsplit, place_after_append_left afterId ns A OLD hanyA]
        refine ⟨place_after afterId ns A, rfl, ?_, ?_, ?_⟩
        · intro x hx
          rcases place_after_mem (afterId) ns A x hx with hx | hx
          · exact hA x hx
          · exact hnsN x hx
        · exact fun x hx => place_after_mem_of_mem afterId ns A x hx
        · exact fun x hx => place_after_ns_mem afterId ns A hanyA x hx
    obtain ⟨A1, hsplit1, hA1, hAsub, hnssub⟩ := hmain
    have hanchor1 : ((ns.map (fun e => e.excerptId)).getLast?.getD afterId = 0
        ∨ ∃ x ∈ A1, x.excerptId = ((ns.map (fun e => e.excerptId)).getLast?.getD afterId)) := by
      cases hgl : (ns.map (fun e => e.excerptId)).getLast? with
      | none =>
        simp only [Option.getD_none]
        rcases hanchor with h0 | ⟨xa, hxa, hxid⟩
        · exact Or.inl h0
        · exact Or.inr ⟨xa, hAsub xa hxa, hxid⟩
      | some lastid =>
        simp only [Option.getD_some]
        obtain ⟨hne', heq⟩ := List.mem_getLast?_eq_getLast (Option.mem_def.mpr hgl)
        have hmem : lastid ∈ ns.map (fun e => e.excerptId) := heq ▸ List.getLast_mem hne'
        obtain ⟨x, hx, hxe⟩ := List.mem_map.mp hmem
        exact Or.inr ⟨x, hnssub x hx, hxe⟩
    have ih := apply_insert_group_front OLD N hold0 holdN hN grest
      ⟨if mb.excerpts.any (fun e => e.excerptId = afterId) = true then
          place_after afterId ns mb.excerpts
        else ns ++ mb.excerpts, mb.nextId + ctxs.length⟩
      ((ns.map (fun e => e.excerptId)).getLast?.getD afterId) A1
      hsplit1 (by simpa using le_trans hnext (Nat.le_add_right _ _)) hA1 hanchor1
    obtain ⟨A', hs', hn', hA', hsub', hg'⟩ := ih
    refine ⟨A', hs', hn', hA', fun x hx => hsub' x (hAsub x hx), ?_⟩
    intro q bb rs hmem hrs
    rcases List.mem_cons.mp hmem with hmem | hmem
    · have hq : q = q0 ∧ bb = b0 ∧ rs = rs0 := by simpa [Prod.ext_iff] using hmem
      rcases hrs0 : rs0 with _ | ⟨c, cs⟩
      · exact absurd (hq.2.2.trans hrs0) hrs
      · have hc : ctxs = pad_clip b0.maxPoint c :: cs.map (pad_clip b0.maxPoint) := by
          rw [hctxs, hrs0]
          simp
        have hhead : (⟨mb.nextId, b0, pad_clip b0.maxPoint c, none⟩ : Excerpt) ∈ ns := by
          rw [hns, hc]
          exact mk_excerpts_head b0 mb.nextId _ _
        exact ⟨⟨mb.nextId, b0, pad_clip b0.maxPoint c, none⟩,
          hsub' _ (hnssub _ hhead), hq.2.1 ▸ rfl⟩
    · exact hg' q bb rs hmem hrs

theorem apply_insert_group_split (chb : Buffer) (N : Nat) :
    ∀ (g : List GroupEntry) (mb : MultiBuffer) (afterId : Nat) (A B : List Excerpt),
      mb.excerpts = A ++ B →
      N ≤ mb.nextId →
      (∀ x ∈ A, N ≤ x.excerptId) →
      (∀ x ∈ B, x.buffer ≠ chb) →
      (∀ q bb rs, (q, bb, rs) ∈ g → bb ≠ chb) →
      ∃ A' B', (apply_insert_group g mb afterId).excerpts = A' ++ B'
        ∧ N ≤ (apply_insert_group g mb afterId).nextId
        ∧ (∀ x ∈ A', N ≤ x.excerptId)
        ∧ (∀ x ∈ B', x.buffer ≠ chb)
        ∧ (∀ x ∈ A, x ∈ A') ∧ (∀ x ∈ B, x ∈ B')
  | [], mb, afterId, A, B, hsplit, hnext, hA, hB, _ =>
    ⟨A, B, hsplit, hnext, hA, hB, fun x hx => hx, fun x hx => hx⟩
  | (q0, b0, rs0) :: grest, mb, afterId, A, B, hsplit, hnext, hA, hB, hg => by
    simp only [apply_insert_group, insert_excerpts_after_eq]
    set ctxs := rs0.map (pad_clip b0.maxPoint) with hctxs
    set ns := mk_excerpts b0 mb.nextId ctxs with hns
    have hb0 : b0 ≠ chb := hg q0 b0 rs0 (List.mem_cons_self _ _)
    have hnsprop : ∀ x ∈ ns, x.buffer = b0 ∧ mb.nextId ≤ x.excerptId :=
      fun x hx => ⟨(mk_excerpts_mem b0 mb.nextId ctxs x hx).1,
        (mk_excerpts_mem b0 mb.nextId ctxs x hx).2.2⟩
    have hnsN : ∀ x ∈ ns, N ≤ x.excerptId :=
      fun x hx => le_trans hnext (hnsprop x hx).2
    have hnsB : ∀ x ∈ ns, x.buffer ≠ chb :=
      fun x hx => (hnsprop x hx).1 ▸ hb0
    have hmain : ∃ A1 B1, (if mb.excerpts.any (fun e => e.excerptId = afterId) = true then
          place_after afterId ns mb.excerpts
        else ns ++ mb.excerpts) = A1 ++ B1
        ∧ (∀ x ∈ A1, N ≤ x.excerptId)
        ∧ (∀ x ∈ B1, x.buffer ≠ chb)
        ∧ (∀ x ∈ A, x ∈ A1) ∧ (∀ x ∈ B, x ∈ B1) := by
      by_cases hanyA : A.any (fun e => e.excerptId = afterId) = true
      · have hany : mb.excerpts.any (fun e => e.excerptId = afterId) = true := by
          rw [List.any_eq_true] at hanyA ⊢
          obtain ⟨x, hx, hxe⟩ := hanyA
          exact ⟨x, by rw [hsplit]; exact List.mem_append.mpr (Or.inl hx), hxe⟩
        rw [hany]
        simp only [if_true]
        rw [hsplit, place_after_append_left afterId ns A B hanyA]
        refine ⟨place_after afterId ns A, B, rfl, ?_, hB, ?_, fun x hx => hx⟩
        · intro x hx
          rcases place_after_mem afterId ns A x hx with hx | hx
          · exact hA x hx
          · exact hnsN x hx
        · exact fun x hx => place_after_mem_of_mem afterId ns A x hx
      · have hAne : ∀ x ∈ A, x.excerptId ≠ afterId := by
          rw [Bool.not_eq_true, List.any_eq_false] at hanyA
          intro x hx
          simpa using hanyA x hx
        by_cases hany : mb.excerpts.any (fun e => e.excerptId = afterId) = true
        · rw [hany]
          simp only [if_true]
          rw [hsplit, place_after_append_right afterId ns A B hAne]
          refine ⟨A, place_after afterId ns B, rfl, hA, ?_, fun x hx => hx, ?_⟩
          · intro x hx
            rcases place_after_mem afterId ns B x hx with hx | hx
            · exact hB x hx
            · exact hnsB x hx
          · exact fun x hx => place_after_mem_of_mem afterId ns B x hx
        · rw [Bool.not_eq_true] at hany
          rw [hany]
          simp only [Bool.false_eq_true, if_false]
          refine ⟨ns ++ A, B, by rw [hsplit, List.append_assoc], ?_, hB, ?_, fun x hx => hx⟩
          · intro x hx
            rcases List.mem_append.mp hx with hx | hx
            · exact hnsN x hx
            · exact hA x hx
          · exact fun x hx => List.mem_append.mpr (Or.inr hx)
    obtain ⟨A1, B1, hsplit1, hA1, hB1, hAsub, hBsub⟩ := hmain
    have ih := apply_insert_group_split chb N grest
      ⟨if mb.excerpts.any (fun e => e.excerptId = afterId) = true then
          place_after afterId ns mb.excerpts
        else ns ++ mb.excerpts, mb.nextId + ctxs.length⟩
      ((ns.map (fun e => e.excerptId)).getLast?.getD afterId) A1 B1
      hsplit1 (by simpa using le_trans hnext (Nat.le_add_right _ _)) hA1 hB1
      (fun q bb rs hm => hg q bb rs (List.mem_cons_of_mem _ hm))
    obtain ⟨A', B', hs', hn', hA', hB', hsubA', hsubB'⟩ := ih
    exact ⟨A', B', hs', hn', hA', hB',
      fun x hx => hsubA' x (hAsub x hx), fun x hx => hsubB' x (hBsub x hx)⟩

theorem insert_phase_split (chb : Buffer) (N : Nat) :
    ∀ (groups : List (Nat × List GroupEntry)) (mb : MultiBuffer) (A B : List Excerpt),
      mb.excerpts = A ++ B →
      N ≤ mb.nextId →
      (∀ x ∈ A, N ≤ x.excerptId) →
      (∀ x ∈ B, x.buffer ≠ chb) →
      (∀ k g, (k, g) ∈ groups → ∀ q bb rs, (q, bb, rs) ∈ g → bb ≠ chb) →
      ∃ A' B', (insert_phase groups mb).excerpts = A' ++ B'
        ∧ (∀ x ∈ A', N ≤ x.excerptId)
        ∧ (∀ x ∈ B', x.buffer ≠ chb)
        ∧ (∀ x ∈ A, x ∈ A') ∧ (∀ x ∈ B, x ∈ B')
  | [], mb, A, B, hsplit, _, hA, hB, _ =>
    ⟨A, B, hsplit, hA, hB, fun x hx => hx, fun x hx => hx⟩
  | (k, g) :: grest, mb, A, B, hsplit, hnext, hA, hB, hgs => by
    have h1 := apply_insert_group_split chb N g mb k A B hsplit hnext hA hB
      (fun q bb rs hm => hgs k g (List.mem_cons_self _ _) q bb rs hm)
    obtain ⟨A1, B1, hs1, hn1, hA1, hB1, hAsub, hBsub⟩ := h1
    have ih := insert_phase_split chb N grest (apply_insert_group g mb k) A1 B1
      hs1 hn1 hA1 hB1 (fun k' g' hm => hgs k' g' (List.mem_cons_of_mem _ hm))
    obtain ⟨A', B', hs', hA', hB', hsubA', hsubB'⟩ := ih
    exact ⟨A', B', hs', hA', hB',
      fun x hx => hsubA' x (hAsub x hx), fun x hx => hsubB' x (hBsub x hx)⟩

theorem remove_excerpts_split (chb : Buffer) (N : Nat) (OLD : List Excerpt)
    (mb : MultiBuffer) (ids : List Nat) (A B : List Excerpt)
    (hsplit : mb.excerpts = A ++ B)
    (hA : ∀ x ∈ A, N ≤ x.excerptId)
    (hB : ∀ x ∈ B, x.buffer ≠ chb)
    (hids : ∀ i ∈ ids, ∃ exo ∈ OLD, i = exo.excerptId)
    (holdN : ∀ exo ∈ OLD, exo.excerptId < N) :
    ∃ A' B', (remove_excerpts mb ids).excerpts = A' ++ B'
      ∧ (∀ x ∈ A', N ≤ x.excerptId)
      ∧ (∀ x ∈ B', x.buffer ≠ chb)
      ∧ (∀ x ∈ A, x ∈ A') ∧ (∀ x ∈ B', x ∈ B) := by
  refine ⟨A.filter (fun e => !(ids.contains e.excerptId)),
    B.filter (fun e => !(ids.contains e.excerptId)), ?_, ?_, ?_, ?_, ?_⟩
  · unfold remove_excerpts
    simp only [hsplit, List.filter_append]
  · exact fun x hx => hA x (List.mem_of_mem_filter hx)
  · exact fun x hx => hB x (List.mem_of_mem_filter hx)
  · intro x hx
    refine List.mem_filter.mpr ⟨hx, ?_⟩
    simp only [Bool.not_eq_true']
    rw [List.contains_eq_any_beq, List.any_eq_false]
    intro i hi
    obtain ⟨exo, hexo, hie⟩ := hids i hi
    have h1 := holdN exo hexo
    have h2 := hA x hx
    simp only [beq_iff_eq]
    omega
  · exact fun x hx => List.mem_of_mem_filter hx

theorem expand_one_excerpt_id_buffer (ids : List Nat) (n : Nat)
    (d : ExpandExcerptDirection) (e : Excerpt) :
    (expand_one_excerpt ids n d e).excerptId = e.excerptId
    ∧ (expand_one_excerpt ids n d e).buffer = e.buffer := by
  unfold expand_one_excerpt
  by_cases h : ids.contains e.excerptId = true
  · rw [if_pos h]
    exact ⟨rfl, rfl⟩
  · rw [if_neg h]
    exact ⟨rfl, rfl⟩

theorem expand_phase_split (chb : Buffer) (N : Nat) :
    ∀ (q : List ((Nat × ExpandExcerptDirection) × List Nat)) (mb : MultiBuffer)
      (A B : List Excerpt),
      mb.excerpts = A ++ B →
      (∀ x ∈ A, N ≤ x.excerptId) →
      (∀ x ∈ B, x.buffer ≠ chb) →
      (∃ x ∈ A, x.buffer = chb) →
      ∃ A' B', (expand_phase q mb).excerpts = A' ++ B'
        ∧ (∀ x ∈ A', N ≤ x.excerptId)
        ∧ (∀ x ∈ B', x.buffer ≠ chb)
        ∧ ∃ x ∈ A', x.buffer = chb
  | [], mb, A, B, hsplit, hA, hB, hw => ⟨A, B, hsplit, hA, hB, hw⟩
  | ((n, d), ids) :: qrest, mb, A, B, hsplit, hA, hB, hw => by
    simp only [expand_phase]
    refine expand_phase_split chb N qrest (expand_excerpts mb ids n d)
      (A.map (expand_one_excerpt ids n d)) (B.map (expand_one_excerpt ids n d)) ?_ ?_ ?_ ?_
    · unfold expand_excerpts
      simp only [hsplit, List.map_append]
    · intro x hx
      obtain ⟨y, hy, hye⟩ := List.mem_map.mp hx
      rw [← hye]
      rw [(expand_one_excerpt_id_buffer ids n d y).1]
      exact hA y hy
    · intro x hx
      obtain ⟨y, hy, hye⟩ := List.mem_map.mp hx
      rw [← hye]
      rw [(expand_one_excerpt_id_buffer ids n d y).2]
      exact hB y hy
    · obtain ⟨x, hx, hxe⟩ := hw
      refine ⟨expand_one_excerpt ids n d x, List.mem_map.mpr ⟨x, hx, rfl⟩, ?_⟩
      rw [(expand_one_excerpt_id_buffer ids n d x).2]
      exact hxe

theorem compute_queues_eq (mb : MultiBuffer) (ents nc : List (Nat × Changes))
    (co no : List (ProjectPath × Nat)) :
    compute_queues mb ents nc co no
      = queue_leftovers nc (process_currents mb ents nc co no initial_queues).1
          (process_currents mb ents nc co no initial_queues).2 := by
  unfold compute_queues
  rcases h : process_currents mb ents nc co no initial_queues with ⟨a, b⟩
  simp [h]

/-- C9: `latest_excerpt_id` starts at `ExcerptId::min()`, so in a
steady-state reconciliation a new file with non-empty hunks whose path sorts
before the first file of the previous ordering (hypotheses `hcur_p`,
`hpre_p`, `hcur_pre` express the path-sortedness invariant around its
position `pre ++ (p, e) :: rest` in the new order) is queued in the
insertion group anchored at `ExcerptId::min()`, and after the apply phase
its excerpts sit at the front of the merged document, before every excerpt
that existed when the call started: the final excerpt sequence splits as
`A ++ B` with no pre-existing excerpt id in `A`, no excerpt of the new
file's buffer in `B`, and an excerpt of the new file's buffer in `A`.
The buffer-distinctness and id-wellformedness hypotheses reflect the
ownership model (one buffer per file, real ids distinct from
`ExcerptId::min()` and below the fresh-id counter). -/
theorem new_front_file_inserted_before_all_existing
    (st : ProjectDiffEditor) (wid : Nat) (nc : List (Nat × Changes))
    (cur pre rest : List (ProjectPath × Nat)) (p : ProjectPath) (e : Nat) (ch : Changes)
    (hsteady : alist_lookup st.entry_order wid = some cur)
    (hch : alist_lookup nc e = some ch)
    (hne : ch.hunks ≠ [])
    (hcur_p : ∀ cq ce', (cq, ce') ∈ cur → compare_paths cq p = .gt)
    (hcur_pre : ∀ cq ce', (cq, ce') ∈ cur → ∀ q e', (q, e') ∈ pre → compare_paths cq q = .gt)
    (hpre_p : ∀ q e', (q, e') ∈ pre → compare_paths p q = .gt)
    (hbuf_pre : ∀ q e', (q, e') ∈ pre →
      ∀ c', alist_lookup nc e' = some c' → c'.buffer ≠ ch.buffer)
    (hbuf_rest : ∀ q e', (q, e') ∈ rest →
      ∀ c', alist_lookup nc e' = some c' → c'.buffer ≠ ch.buffer)
    (hbuf_old : ∀ ex ∈ st.excerpts.excerpts, ex.buffer ≠ ch.buffer)
    (hids : ∀ ex ∈ st.excerpts.excerpts,
      ex.excerptId ≠ ExcerptId.min ∧ ex.excerptId < st.excerpts.nextId)
    (hnext : ExcerptId.min < st.excerpts.nextId) :
    (∃ g, (ExcerptId.min, g)
        ∈ (steady_queues st wid nc (pre ++ (p, e) :: rest) cur).new_excerpt_hunks
      ∧ ∃ rs, (p, ch.buffer, rs) ∈ g)
    ∧ ∃ A B, (update_excerpts st wid nc (pre ++ (p, e) :: rest)).excerpts.excerpts = A ++ B
        ∧ (∀ x ∈ A, ∀ exo ∈ st.excerpts.excerpts, x.excerptId ≠ exo.excerptId)
        ∧ (∀ x ∈ B, x.buffer ≠ ch.buffer)
        ∧ ∃ x ∈ A, x.buffer = ch.buffer := by
  have hne' : ¬ ch.hunks.isEmpty = true := by
    simpa [List.isEmpty_iff] using hne
  have hinv0 : QueueInv st.excerpts.excerpts ch.buffer p initial_queues :=
    ⟨List.Pairwise.nil, fun k g hg => absurd hg (List.not_mem_nil _),
      fun i hi => absurd hi (List.not_mem_nil _)⟩
  have hpre0 : pre_inv p initial_queues :=
    fun k g hg => absurd hg (List.not_mem_nil _)
  have hmaster := compute_queues_queues_p st.excerpts.excerpts ch.buffer p e ch st.excerpts
    ((alist_lookup st.buffer_changes wid).getD []) nc rfl hch rfl hne'
    cur pre rest initial_queues hcur_p hcur_pre hpre_p hbuf_pre hbuf_rest rfl hinv0 hpre0
  have hqsF : steady_queues st wid nc (pre ++ (p, e) :: rest) cur
      = queue_leftovers nc
          (process_currents st.excerpts ((alist_lookup st.buffer_changes wid).getD []) nc
            cur (pre ++ (p, e) :: rest) initial_queues).1
          (process_currents st.excerpts ((alist_lookup st.buffer_changes wid).getD []) nc
            cur (pre ++ (p, e) :: rest) initial_queues).2 := by
    unfold steady_queues
    exact compute_queues_eq _ _ _ _ _
  rw [← hqsF] at hmaster
  obtain ⟨hinvF, hminF⟩ := hmaster
  obtain ⟨gF, hgF, rsF, hrsF, hmemF⟩ := hminF
  refine ⟨⟨gF, hgF, rsF, hmemF⟩, ?_⟩
  obtain ⟨grest, hgh, hpos⟩ := pairwise_zero_head _ gF hinvF.1 hgF
  have hold0 : ∀ exo ∈ st.excerpts.excerpts, exo.excerptId ≠ 0 :=
    fun exo h => (hids exo h).1
  have holdN : ∀ exo ∈ st.excerpts.excerpts, exo.excerptId < st.excerpts.nextId :=
    fun exo h => (hids exo h).2
  have hupd : (update_excerpts st wid nc (pre ++ (p, e) :: rest)).excerpts
      = expand_phase (steady_queues st wid nc (pre ++ (p, e) :: rest) cur).excerpt_to_expand
        (remove_excerpts
          (insert_phase
            (steady_queues st wid nc (pre ++ (p, e) :: rest) cur).new_excerpt_hunks
            st.excerpts)
          (steady_queues st wid nc (pre ++ (p, e) :: rest) cur).excerpts_to_remove) := by
    simp [update_excerpts, steady_queues, hsteady]
  have hip : insert_phase
      (steady_queues st wid nc (pre ++ (p, e) :: rest) cur).new_excerpt_hunks st.excerpts
      = insert_phase grest (apply_insert_group gF st.excerpts 0) := by
    rw [hgh]
    rfl
  have h1 := apply_insert_group_front st.excerpts.excerpts st.excerpts.nextId hold0 holdN
    hnext gF st.excerpts 0 [] (by simp) (le_refl _) (fun x hx => absurd hx (List.not_mem_nil _))
    (Or.inl rfl)
  obtain ⟨A0, hs0, hn0, hA0, _, hgbuf⟩ := h1
  obtain ⟨x0, hx0, hx0b⟩ := hgbuf p ch.buffer rsF hmemF hrsF
  have hgrest : ∀ k g, (k, g) ∈ grest → ∀ q bb rs, (q, bb, rs) ∈ g → bb ≠ ch.buffer := by
    intro k g hg q bb rs hm hbbe
    have hk0 := hinvF.2.1 k g (by rw [hgh]; exact List.mem_cons_of_mem _ hg) q bb rs hm hbbe
    have hpk : 0 < k := hpos (k, g) hg
    have hkk : k = 0 := hk0.1
    omega
  have h2 := insert_phase_split ch.buffer st.excerpts.nextId grest
    (apply_insert_group gF st.excerpts 0) A0 st.excerpts.excerpts hs0 hn0 hA0 hbuf_old hgrest
  obtain ⟨A1, B1, hs1, hA1, hB1, hAsub1, _⟩ := h2
  have h3 := remove_excerpts_split ch.buffer st.excerpts.nextId st.excerpts.excerpts
    (insert_phase grest (apply_insert_group gF st.excerpts 0))
    (steady_queues st wid nc (pre ++ (p, e) :: rest) cur).excerpts_to_remove A1 B1 hs1 hA1 hB1
    hinvF.2.2 holdN
  obtain ⟨A2, B2, hs2, hA2, hB2, hAsub2, _⟩ := h3
  have h4 := expand_phase_split ch.buffer st.excerpts.nextId
    (steady_queues st wid nc (pre ++ (p, e) :: rest) cur).excerpt_to_expand
    (remove_excerpts (insert_phase grest (apply_insert_group gF st.excerpts 0))
      (steady_queues st wid nc (pre ++ (p, e) :: rest) cur).excerpts_to_remove)
    A2 B2 hs2 hA2 hB2 ⟨x0, hAsub2 x0 (hAsub1 x0 hx0), hx0b⟩
  obtain ⟨A3, B3, hs3, hA3, hB3, hw3⟩ := h4
  refine ⟨A3, B3, ?_, ?_, hB3, hw3⟩
  · rw [hupd, hip]
    exact hs3
  · intro x hx exo hexo
    have h5 := hA3 x hx
    have h6 := holdN exo hexo
    omega

/-- Closed witness for the front-insertion theorem, at the concrete C2
scenario state: new file `a` sorts before the only tracked file `c`. -/
theorem new_front_file_inserted_before_all_existing_witness :
    (∃ g, (ExcerptId.min, g) ∈ (steady_queues stC2 1 ncC2 noC2 [(["c"], 3)]).new_excerpt_hunks
      ∧ ∃ rs, (["a"], bufA, rs) ∈ g)
    ∧ ∃ A B, (update_excerpts stC2 1 ncC2 noC2).excerpts.excerpts = A ++ B
        ∧ (∀ x ∈ A, ∀ exo ∈ stC2.excerpts.excerpts, x.excerptId ≠ exo.excerptId)
        ∧ (∀ x ∈ B, x.buffer ≠ bufA)
        ∧ ∃ x ∈ A, x.buffer = bufA :=
  new_front_file_inserted_before_all_existing stC2 1 ncC2 [(["c"], 3)] []
    [(["b"], 2), (["c"], 3)] ["a"] 1 ⟨GitFileStatus.Added, bufA, [⟨⟨⟨5, 0⟩, ⟨6, 0⟩⟩⟩]⟩
    rfl rfl (by decide)
    (by
      intro cq ce' hm
      have h1 : cq = ["c"] := congrArg Prod.fst (List.mem_singleton.mp hm)
      subst h1
      decide)
    (fun cq ce' _ q e' hm => absurd hm (List.not_mem_nil _))
    (fun q e' hm => absurd hm (List.not_mem_nil _))
    (fun q e' hm => absurd hm (List.not_mem_nil _))
    (by
      intro q e' hm c' hl
      rcases List.mem_cons.mp hm with hm | hm
      · have he : e' = 2 := congrArg Prod.snd hm
        subst he
        have hv : alist_lookup ncC2 2
            = some ⟨GitFileStatus.Added, bufB, [⟨⟨⟨5, 0⟩, ⟨6, 0⟩⟩⟩]⟩ := rfl
        rw [hv] at hl
        injection hl with h
        rw [← h]
        decide
      · have he : e' = 3 := congrArg Prod.snd (List.mem_singleton.mp hm)
        subst he
        have hv : alist_lookup ncC2 3
            = some ⟨GitFileStatus.Modified, bufC, [⟨⟨⟨10, 0⟩, ⟨12, 0⟩⟩⟩]⟩ := rfl
        rw [hv] at hl
        injection hl with h
        rw [← h]
        decide)
    (by decide) (by decide) (by decide)
